import Mathlib

/-!
Verification of the poker-bot engine specification against a shallow
embedding of the repository code.

The repository snapshot ships the betting-engine modules
(`poker_bot/engine/pot.py`, `player.py`, `deck.py`) whose definitions are
embedded below directly from the source.  The card module
(`poker_bot/engine/card.py`) and the hand evaluator
(`poker_bot/engine/evaluation/evaluator.py`) are imported by the test suite
but are absent from the snapshot, so those components are modelled from the
specification (spec sections 3, 4.1, 4.2, 4.3, 7) and checked against it.
-/

set_option maxHeartbeats 1000000
set_option maxRecDepth 40000

namespace PokerBot

/-- Modelled from the spec: the four suit symbols of the missing module
`poker_bot/engine/card.py` (spec section 3: `suit ∈ one of 4 distinct
symbols`; the test suite names them hearts, diamonds, clubs, spades). -/
inductive Suit where
  | hearts
  | diamonds
  | clubs
  | spades
deriving DecidableEq, Repr, Fintype

/-- Modelled from the spec: the string name of a suit, as used by the
`to_dict` serialization record. -/
def Suit.name : Suit → String
  | .hearts => "hearts"
  | .diamonds => "diamonds"
  | .clubs => "clubs"
  | .spades => "spades"

/-- Modelled from the spec: recognise a suit token, the inverse direction
used by `Card.from_dict`; unrecognised tokens fail (`InvalidSuit`). -/
def suit_from_string (s : String) : Option Suit :=
  if s = "hearts" then some .hearts
  else if s = "diamonds" then some .diamonds
  else if s = "clubs" then some .clubs
  else if s = "spades" then some .spades
  else none

/-- Modelled from the spec: a playing card of the missing module
`poker_bot/engine/card.py`, an immutable value with numeric rank 2..14 and
a suit (spec section 3). -/
structure Card where
  rank_int : Nat
  suit : Suit
deriving DecidableEq, Repr

/-- A card the constructor would accept: rank within 2..14 (spec 4.1:
`InvalidRank` outside the range). -/
def Card.valid (c : Card) : Prop := 2 ≤ c.rank_int ∧ c.rank_int ≤ 14

instance (c : Card) : Decidable c.valid :=
  inferInstanceAs (Decidable (2 ≤ c.rank_int ∧ c.rank_int ≤ 14))

/-- Modelled from the spec: card equality operates on rank only
(spec 3 and 4.1). -/
def card_eq (a b : Card) : Bool := a.rank_int == b.rank_int

/-- Modelled from the spec: strict ordering on rank only. -/
def card_lt (a b : Card) : Bool := Nat.blt a.rank_int b.rank_int

/-- Modelled from the spec: non-strict ordering on rank only. -/
def card_le (a b : Card) : Bool := Nat.ble a.rank_int b.rank_int

/-- Modelled from the spec: strict reverse ordering on rank only. -/
def card_gt (a b : Card) : Bool := Nat.blt b.rank_int a.rank_int

/-- Modelled from the spec: non-strict reverse ordering on rank only. -/
def card_ge (a b : Card) : Bool := Nat.ble b.rank_int a.rank_int

/-- Modelled from the spec: the hash operates on rank alone (spec 3). -/
def card_hash (c : Card) : Nat := c.rank_int

/-- Modelled from the spec: the serialization record
`{rank : int, suit : string}` (spec 3 and 4.1). -/
structure CardDict where
  rank : Nat
  suit : String
deriving DecidableEq, Repr

/-- Modelled from the spec: `Card.to_dict`, serialising to the
`{rank : int, suit : string}` record. -/
def Card.to_dict (c : Card) : CardDict :=
  { rank := c.rank_int, suit := c.suit.name }

/-- Modelled from the spec: `Card.from_dict`, the validating constructor
direction of the round-trip; fails outside the recognised domain
(`InvalidRank` / `InvalidSuit`). -/
def Card.from_dict (d : CardDict) : Option Card :=
  if 2 ≤ d.rank ∧ d.rank ≤ 14 then
    (suit_from_string d.suit).map (fun s => { rank_int := d.rank, suit := s })
  else none

/-!
## Pot (`poker_bot/engine/pot.py`)

`Pot._pot` is a `Counter` mapping players to cumulative contributions.
Players are identified here by their ids (natural numbers); the mapping is
embedded as an association list with pairwise-distinct keys, matching the
Python `dict` produced by `{k: v for k, v in self._pot.items()}`.
Contributions are integers (`Counter` values).
-/

/-- One layer of `Pot.side_pots` state: players paired with chips. -/
abbrev PotMap := List (Nat × Int)

/-- `min(pot.values())` of `Pot.side_pots`; only called on a nonempty pot. -/
def pot_min_chips (pot : PotMap) : Int := ((pot.map Prod.snd).min?).getD 0

/-- The body of one iteration of the `while` loop in `Pot.side_pots`:
subtract the layer amount from every player and pop players at zero. -/
def side_pots_step (pot : PotMap) (m : Int) : PotMap :=
  (pot.map (fun p => (p.1, p.2 - m))).filter (fun p => p.2 != 0)

/-- `Pot.side_pots` (pot.py lines 26-43): repeatedly peel off the minimum
remaining contribution as one side pot until no contributions remain. -/
def side_pots (pot : PotMap) : List PotMap :=
  if h : pot = [] then []
  else
    let m := pot_min_chips pot
    (pot.map (fun p => (p.1, m))) :: side_pots (side_pots_step pot m)
termination_by pot.length
decreasing_by
  have hne : pot.map Prod.snd ≠ [] := by simpa using h
  have hx : ∃ x ∈ pot, x.2 = pot_min_chips pot := by
    cases hmin : (pot.map Prod.snd).min? with
    | none => exact absurd (List.min?_eq_none_iff.mp hmin) hne
    | some mv =>
      have hm : mv ∈ pot.map Prod.snd :=
        List.min?_mem (fun a b => min_choice a b) hmin
      rcases List.mem_map.mp hm with ⟨x, hxm, hxv⟩
      exact ⟨x, hxm, by simp [pot_min_chips, hmin, hxv]⟩
  rcases hx with ⟨x, hxm, hxv⟩
  have hlt : (side_pots_step pot (pot_min_chips pot)).length <
      (pot.map (fun p => (p.1, p.2 - pot_min_chips pot))).length := by
    apply List.length_filter_lt_length_iff_exists.mpr
    exact ⟨(x.1, x.2 - pot_min_chips pot), List.mem_map_of_mem _ hxm, by simp [hxv]⟩
  simpa using hlt

/-- `Pot.total` (pot.py lines 49-51): the sum of all contributions. -/
def pot_total (pot : PotMap) : Int := (pot.map Prod.snd).sum

/-- The amount a given player receives in one side pot (0 when absent). -/
def side_pot_amount (p : Nat) (sp : PotMap) : Int := ((sp.lookup p).getD 0)

/-!
## Player (`poker_bot/engine/player.py`)

Only the chip-moving core is needed: `n_chips` together with the player's
cumulative contribution `pot[player]` (`Pot.add_chips` increments it).
-/

/-- The chip state `add_chips_to_pot` reads and writes: the player's stack
`n_chips` and this player's entry of the pot counter. -/
structure PlayerChips where
  n_chips : Int
  n_bet_chips : Int
deriving DecidableEq, Repr

/-- `Player._check_valid_bet_amount` followed by the two mutations of
`Player.add_chips_to_pot` (player.py lines 77-95); the check precedes both
mutations, so a failed check leaves the state untouched. -/
def add_chips_to_pot (st : PlayerChips) (amount : Int) :
    Except String PlayerChips :=
  if amount < 0 then .error "Can not subtract chips from pot."
  else if amount > st.n_chips then .error "Can not bet more chips than you have."
  else .ok { n_chips := st.n_chips - amount, n_bet_chips := st.n_bet_chips + amount }

/-!
## Deck (`poker_bot/engine/deck.py`)

`random.shuffle` in `Deck.reset` and the random index drawn by
`np.random.randint` in `Deck._next_card` are the only nondeterminism; the
shuffle permutes `_cards_in_deck` in place (modelled up to permutation: all
claimed properties are counts and distinctness, both permutation
invariant), and the random index is modelled by quantifying over every
index `np.random.randint(len)` can return.
-/

/-- The state of `Deck`: cards remaining and cards dealt. -/
structure Deck where
  cards_in_deck : List Card
  dealt_cards : List Card
deriving DecidableEq, Repr

/-- `Deck.reset` (deck.py lines 39-47): rebuild the full card list from the
included suits and ranks and clear the dealt list. -/
def deck_reset (include_suits : List Suit) (include_ranks : List Nat) : Deck :=
  { cards_in_deck :=
      include_suits.flatMap (fun s => include_ranks.map (fun r => Card.mk r s)),
    dealt_cards := [] }

/-- `len(deck)` (deck.py lines 25-27). -/
def deck_len (d : Deck) : Nat := d.cards_in_deck.length

/-- `Deck.dealt_count` (deck.py lines 29-32). -/
def dealt_count (d : Deck) : Nat := d.dealt_cards.length

/-- `Deck.total_count` (deck.py lines 34-37). -/
def total_count (d : Deck) : Nat := d.cards_in_deck.length + d.dealt_cards.length

/-- `Deck._next_card` (deck.py lines 55-70): check emptiness, then pop the
card at the chosen index and append it to the dealt list.  `index` is
`np.random.randint(len)` for `pick_random_card` and `len - 1` for
`pick_sequential_card`; `list.pop` with an out-of-range index raises, which
the `.error` branch mirrors (unreachable for the two callers). -/
def next_card (d : Deck) (index : Nat) : Except String (Card × Deck) :=
  if d.cards_in_deck = [] then .error "Deck is empty - please use Deck.reset()"
  else
    match d.cards_in_deck[index]? with
    | some c =>
        .ok (c, { cards_in_deck := d.cards_in_deck.eraseIdx index,
                  dealt_cards := d.dealt_cards ++ [c] })
    | none => .error "pop index out of range"

/-- `Deck.pick_sequential_card` (deck.py lines 52-53, 63-64): pop the last
card. -/
def pick_sequential_card (d : Deck) : Except String (Card × Deck) :=
  next_card d (d.cards_in_deck.length - 1)

/-!
## Evaluator (modelled from the spec)

The module `poker_bot/engine/evaluation/evaluator.py` is absent from the
snapshot; everything below is modelled from spec sections 3 (encoding and
boundary table), 4.2 (lookup table construction) and 4.3 (evaluation).
-/

/-- Modelled from the spec: the 13 ranks in decreasing strength order, the
enumeration order of the table builder (spec 4.2: top rank first). -/
def ranks_desc : List Nat := [14, 13, 12, 11, 10, 9, 8, 7, 6, 5, 4, 3, 2]

/-- Modelled from the spec: the rank prime of the card encoding, 13
distinct primes one per rank 2..14 (spec 3); 1 outside the valid range. -/
def rank_prime (r : Nat) : Nat :=
  match r with
  | 2 => 2
  | 3 => 3
  | 4 => 5
  | 5 => 7
  | 6 => 11
  | 7 => 13
  | 8 => 17
  | 9 => 19
  | 10 => 23
  | 11 => 29
  | 12 => 31
  | 13 => 37
  | 14 => 41
  | _ => 1

/-- Modelled from the spec: the 13-bit one-hot rank bit of the card
encoding (spec 3): bit 0 for rank 2 up to bit 12 for the ace. -/
def rank_bit (r : Nat) : Nat := 2 ^ (r - 2)

/-- Modelled from the spec: the 4-bit one-hot suit bit of the card
encoding (spec 3). -/
def suit_bit (s : Suit) : Nat :=
  match s with
  | .hearts => 1
  | .diamonds => 2
  | .clubs => 4
  | .spades => 8

/-- Number of set bits among the 13 rank bits. -/
def popcount13 (n : Nat) : Nat :=
  (List.range 13).countP (fun i => n.testBit i)

/-- OR of the 13-bit rank bits of a rank list (spec 4.3). -/
def rank_or_mask (rs : List Nat) : Nat := (rs.map rank_bit).foldr (· ||| ·) 0

/-- All size-`n` combinations of a list, preserving relative order —
`itertools.combinations`; on a descending rank list this enumerates picks
of distinct ranks in decreasing strength order (spec 4.2). -/
def combos : Nat → List α → List (List α)
  | 0, _ => [[]]
  | _ + 1, [] => []
  | n + 1, x :: xs => (combos n xs).map (fun l => x :: l) ++ combos (n + 1) xs

/-- Modelled from the spec (4.2 step 1): the 10 straight rank-bitmasks in
strength order, royal (`A,K,Q,J,10`) down through the wheel
(`A,2,3,4,5`), whose mask is the ace bit plus the four lowest bits. -/
def straight_masks : List Nat :=
  (List.range 9).map (fun i => 31 * 2 ^ (8 - i)) ++ [2 ^ 12 + 15]

/-- Modelled from the spec (4.2 step 2): the `C(13,5) = 1287` bitmasks of 5
distinct ranks, enumerated as the picks of 5 distinct ranks in decreasing
strength order (top rank first, then next, ...); for 5-element rank sets,
decreasing strength order coincides with decreasing numeric mask order. -/
def five_bit_masks_desc : List Nat :=
  (combos 5 ranks_desc).map rank_or_mask

/-- Modelled from the spec (4.2 step 2): the 1277 non-straight 5-rank
bitmasks in decreasing strength order. -/
def flush_nonstraight_masks : List Nat :=
  five_bit_masks_desc.filter (fun m => !(straight_masks.contains m))

/-- Modelled from the spec: `flush_table`, keyed by 5-bit rank-bitmask:
straight flushes score 1-10, ordinary flushes 323-1599 (spec 3, 4.2). -/
def flush_table : List (Nat × Nat) :=
  straight_masks.zip (List.range' 1 10)
  ++ flush_nonstraight_masks.zip (List.range' 323 1277)

/-- Modelled from the spec: `no_pair_table`, keyed by 5-bit rank-bitmask:
straights score 1600-1609, high cards 6186-7462 (spec 3, 4.2). -/
def no_pair_table : List (Nat × Nat) :=
  straight_masks.zip (List.range' 1600 10)
  ++ flush_nonstraight_masks.zip (List.range' 6186 1277)

/-- Modelled from the spec (4.2 step 3): four-of-a-kind prime products,
quad rank descending then kicker descending (13 x 12 = 156 combos). -/
def four_of_a_kind_products : List Nat :=
  ranks_desc.flatMap (fun q =>
    (ranks_desc.filter (fun k => k != q)).map (fun k =>
      rank_prime q ^ 4 * rank_prime k))

/-- Modelled from the spec (4.2 step 3): full-house prime products, trip
rank descending then pair rank descending (13 x 12 = 156 combos). -/
def full_house_products : List Nat :=
  ranks_desc.flatMap (fun t =>
    (ranks_desc.filter (fun p => p != t)).map (fun p =>
      rank_prime t ^ 3 * rank_prime p ^ 2))

/-- Modelled from the spec (4.2 step 3): three-of-a-kind prime products,
trip rank descending then the two kickers descending (13 x C(12,2) = 858
combos). -/
def three_of_a_kind_products : List Nat :=
  ranks_desc.flatMap (fun t =>
    (combos 2 (ranks_desc.filter (fun k => k != t))).map (fun ks =>
      rank_prime t ^ 3 * (ks.map rank_prime).prod))

/-- Modelled from the spec (4.2 step 3): two-pair prime products, the pair
ranks descending then the kicker descending (C(13,2) x 11 = 858 combos). -/
def two_pair_products : List Nat :=
  (combos 2 ranks_desc).flatMap (fun ps =>
    (ranks_desc.filter (fun k => !(ps.contains k))).map (fun k =>
      (ps.map (fun p => rank_prime p ^ 2)).prod * rank_prime k))

/-- Modelled from the spec (4.2 step 3): one-pair prime products, pair rank
descending then the three kickers descending (13 x C(12,3) = 2860
combos). -/
def pair_products : List Nat :=
  ranks_desc.flatMap (fun p =>
    (combos 3 (ranks_desc.filter (fun k => k != p))).map (fun ks =>
      rank_prime p ^ 2 * (ks.map rank_prime).prod))

/-- Modelled from the spec: `multi_rank_table`, keyed by the prime product
of the 5 rank primes, covering the paired classes with the boundary-table
score ranges (spec 3, 4.2 step 3). -/
def multi_rank_table : List (Nat × Nat) :=
  four_of_a_kind_products.zip (List.range' 11 156)
  ++ full_house_products.zip (List.range' 167 156)
  ++ three_of_a_kind_products.zip (List.range' 1610 858)
  ++ two_pair_products.zip (List.range' 2468 858)
  ++ pair_products.zip (List.range' 3326 2860)

/-- Product of the rank primes of a rank list (spec 4.3). -/
def prime_product (rs : List Nat) : Nat := (rs.map rank_prime).prod

/-- Modelled from the spec (4.3, 5-card rule): given the rank list and
whether the suit-bit AND is nonzero (flush), look up the matching table. -/
def eval_ranks (rs : List Nat) (flush : Bool) : Option Nat :=
  if flush then flush_table.lookup (rank_or_mask rs)
  else if popcount13 (rank_or_mask rs) == 5 then
    no_pair_table.lookup (rank_or_mask rs)
  else multi_rank_table.lookup (prime_product rs)

/-- Bitwise AND of the one-hot suit bits (spec 4.3): nonzero exactly when
all suits are equal. -/
def suit_and (cs : List Card) : Nat :=
  (cs.map (fun c => suit_bit c.suit)).foldr (· &&& ·) 15

/-- Modelled from the spec (4.3): the 5-card evaluation primitive. -/
def evaluate_five (cs : List Card) : Option Nat :=
  eval_ranks (cs.map Card.rank_int) (suit_and cs != 0)

/-- All-or-nothing collection of the per-subset scores: a missing score
propagates, no subset is silently dropped (spec 7). -/
def collect_scores : List (Option Nat) → Option (List Nat)
  | [] => some []
  | none :: _ => none
  | some x :: rest => (collect_scores rest).map (fun l => x :: l)

/-- Modelled from the spec (4.3, 6/7-card rule): evaluate every 5-card
subset and return the minimum score. -/
def best_of (cs : List Card) : Option Nat :=
  match collect_scores ((combos 5 cs).map evaluate_five) with
  | some (s :: ss) => some (ss.foldl min s)
  | _ => none

/-- Modelled from the spec (7): the failure kinds of `evaluate`.
`tableMiss` marks an internal lookup failure; it is proven unreachable for
valid inputs and exists only to keep the embedding total. -/
inductive EvalError where
  | invalidHandSize
  | duplicateCard
  | tableMiss
deriving DecidableEq, Repr

/-- Modelled from the spec (4.3, 6): `evaluate(hole_cards, board_cards)`;
validates the combined size and distinctness, then takes the best 5-card
subset score. -/
def evaluate (hole board : List Card) : Except EvalError Nat :=
  let cs := hole ++ board
  if ¬ (cs.length = 5 ∨ cs.length = 6 ∨ cs.length = 7) then
    .error .invalidHandSize
  else if ¬ cs.Nodup then .error .duplicateCard
  else
    match best_of cs with
    | some s => .ok s
    | none => .error .tableMiss

/-- Modelled from the spec (4.3): `get_rank_class`, the monotone step
lookup over the 9 boundary ranges; scores outside `[1,7462]` are
rejected. -/
def get_rank_class (score : Nat) : Option Nat :=
  if score < 1 ∨ score > 7462 then none
  else if score ≤ 10 then some 1
  else if score ≤ 166 then some 2
  else if score ≤ 322 then some 3
  else if score ≤ 1599 then some 4
  else if score ≤ 1609 then some 5
  else if score ≤ 2467 then some 6
  else if score ≤ 3325 then some 7
  else if score ≤ 6185 then some 8
  else some 9

/-- Modelled from the spec (4.3): `class_to_string`, the 9 canonical
names. -/
def class_to_string (class_id : Nat) : String :=
  match class_id with
  | 1 => "Straight Flush"
  | 2 => "Four of a Kind"
  | 3 => "Full House"
  | 4 => "Flush"
  | 5 => "Straight"
  | 6 => "Three of a Kind"
  | 7 => "Two Pair"
  | 8 => "Pair"
  | 9 => "High Card"
  | _ => ""

/-!
## Auxiliary definitions used by the verification

These do not model repository code; they are the executable vocabulary of
the theorems (enumerations to quantify over, sums to compare).
-/

/-- The total chips a given player receives across a list of side pots. -/
def player_side_sum (p : Nat) (sps : List PotMap) : Int :=
  (sps.map (side_pot_amount p)).sum

/-!
# Theorems

First the claims about the card value type, then the betting-engine
claims, then the evaluator development.
-/

/-- C6: comparison operators, equality and hash of `Card` are determined
by rank alone: equality holds exactly on equal ranks, the strict and
non-strict orders mirror the numeric rank order, hashes agree whenever
ranks agree, and two cards of equal rank but different suit compare equal
under the non-strict comparisons. -/
theorem card_comparisons_rank_only (a b : Card) :
    (card_eq a b = true ↔ a.rank_int = b.rank_int)
    ∧ (card_lt a b = true ↔ a.rank_int < b.rank_int)
    ∧ (card_le a b = true ↔ a.rank_int ≤ b.rank_int)
    ∧ (card_gt a b = true ↔ b.rank_int < a.rank_int)
    ∧ (card_ge a b = true ↔ b.rank_int ≤ a.rank_int)
    ∧ (a.rank_int = b.rank_int → card_hash a = card_hash b)
    ∧ (a.rank_int = b.rank_int →
        card_eq a b = true ∧ card_le a b = true ∧ card_ge a b = true) := by
  refine ⟨?_, ?_, ?_, ?_, ?_, ?_, ?_⟩ <;>
    simp [card_eq, card_lt, card_le, card_gt, card_ge, card_hash,
      Nat.blt_eq, Nat.ble_eq] <;>
    omega

/-- C6 witness: the ace of hearts and the ace of spades compare equal,
with equal hashes, under the rank-only comparisons. -/
theorem card_comparisons_rank_only_witness :
    card_eq ⟨14, .hearts⟩ ⟨14, .spades⟩ = true
    ∧ card_le ⟨14, .hearts⟩ ⟨14, .spades⟩ = true
    ∧ card_ge ⟨14, .hearts⟩ ⟨14, .spades⟩ = true
    ∧ card_hash ⟨14, .hearts⟩ = card_hash ⟨14, .spades⟩ := by
  have h := card_comparisons_rank_only ⟨14, .hearts⟩ ⟨14, .spades⟩
  have he := h.2.2.2.2.2.2 rfl
  exact ⟨he.1, he.2.1, he.2.2, h.2.2.2.2.2.1 rfl⟩

/-- C7: `to_dict` produces the `{rank, suit}` record holding the integer
rank and the suit name, and `from_dict` restores the original card. -/
theorem card_dict_round_trip (c : Card) (h : c.valid) :
    (c.to_dict).rank = c.rank_int
    ∧ (c.to_dict).suit = c.suit.name
    ∧ Card.from_dict c.to_dict = some c := by
  obtain ⟨r, s⟩ := c
  obtain ⟨h2, h14⟩ := h
  refine ⟨rfl, rfl, ?_⟩
  cases s <;>
    simp [Card.to_dict, Card.from_dict, Suit.name, suit_from_string, h2, h14]

/-- C7 witness: the queen of diamonds round-trips through its record. -/
theorem card_dict_round_trip_witness :
    Card.from_dict (Card.to_dict ⟨12, .diamonds⟩) = some ⟨12, .diamonds⟩ :=
  (card_dict_round_trip ⟨12, .diamonds⟩ (by decide)).2.2

/-- C10: `add_chips_to_pot` rejects a negative amount and an amount above
the stack, producing no new state in either case (the check precedes both
mutations); an accepted amount moves exactly `amount` chips from the stack
to the player's pot contribution, preserving their sum. -/
theorem add_chips_to_pot_spec (st : PlayerChips) (amount : Int) :
    (amount < 0 →
      add_chips_to_pot st amount = .error "Can not subtract chips from pot.")
    ∧ (0 ≤ amount → st.n_chips < amount →
      add_chips_to_pot st amount = .error "Can not bet more chips than you have.")
    ∧ (0 ≤ amount → amount ≤ st.n_chips →
      add_chips_to_pot st amount =
        .ok { n_chips := st.n_chips - amount,
              n_bet_chips := st.n_bet_chips + amount })
    ∧ (∀ st2, add_chips_to_pot st amount = .ok st2 →
        0 ≤ amount ∧ amount ≤ st.n_chips
        ∧ st2.n_chips = st.n_chips - amount
        ∧ st2.n_bet_chips = st.n_bet_chips + amount
        ∧ st2.n_chips + st2.n_bet_chips = st.n_chips + st.n_bet_chips) := by
  refine ⟨?_, ?_, ?_, ?_⟩
  · intro hneg
    simp [add_chips_to_pot, hneg]
  · intro hnn hgt
    rw [add_chips_to_pot, if_neg (by omega), if_pos (by omega)]
  · intro hnn hle
    rw [add_chips_to_pot, if_neg (by omega), if_neg (by omega)]
  · intro st2 hok
    rw [add_chips_to_pot] at hok
    split at hok
    · exact absurd hok (by simp)
    · split at hok
      · exact absurd hok (by simp)
      · rename_i hneg hgt
        injection hok with h
        subst h
        refine ⟨by omega, by omega, rfl, rfl, by simp⟩

/-- C10 witness: betting 30 from a stack of 100 with 5 already
contributed leaves 70 in the stack and 35 contributed. -/
theorem add_chips_to_pot_spec_witness :
    add_chips_to_pot ⟨100, 5⟩ 30 = .ok ⟨70, 35⟩ := by
  have h := (add_chips_to_pot_spec ⟨100, 5⟩ 30).2.2.1 (by norm_num) (by norm_num)
  simpa using h

/-- C9: a freshly reset deck holds `|suits| * |ranks|` cards, all distinct
when the suit and rank lists are, with nothing dealt; a successful pick
moves exactly one card from the deck to the dealt pile (so remaining plus
dealt is preserved, and distinctness — no card dealt twice — is
preserved); picking from an empty deck fails with the `ValueError` message
and produces no new state; picks succeed whenever the deck is nonempty. -/
theorem deck_operations_spec (S : List Suit) (R : List Nat) (d : Deck) (i : Nat) :
    (deck_len (deck_reset S R) = S.length * R.length
      ∧ dealt_count (deck_reset S R) = 0
      ∧ total_count (deck_reset S R) = S.length * R.length)
    ∧ (S.Nodup → R.Nodup →
        ((deck_reset S R).cards_in_deck ++ (deck_reset S R).dealt_cards).Nodup)
    ∧ (d.cards_in_deck = [] →
        ∀ j, next_card d j = .error "Deck is empty - please use Deck.reset()")
    ∧ (∀ c d2, next_card d i = .ok (c, d2) →
        deck_len d2 = deck_len d - 1
        ∧ dealt_count d2 = dealt_count d + 1
        ∧ total_count d2 = total_count d
        ∧ (d2.cards_in_deck ++ d2.dealt_cards).Perm
            (d.cards_in_deck ++ d.dealt_cards)
        ∧ ((d.cards_in_deck ++ d.dealt_cards).Nodup →
            (d2.cards_in_deck ++ d2.dealt_cards).Nodup ∧ d2.dealt_cards.Nodup))
    ∧ (i < deck_len d → ∃ c d2, next_card d i = .ok (c, d2))
    ∧ (d.cards_in_deck ≠ [] → ∃ c d2, pick_sequential_card d = .ok (c, d2)) := by
  have hlen : deck_len (deck_reset S R) = S.length * R.length := by
    simp [deck_len, deck_reset, List.length_flatMap, Function.comp_def,
      List.map_const', List.sum_replicate, smul_eq_mul, Nat.mul_comm]
  have hok_shape : ∀ c d2, next_card d i = .ok (c, d2) →
      ∃ hi : i < d.cards_in_deck.length,
        c = d.cards_in_deck[i]
        ∧ d2.cards_in_deck = d.cards_in_deck.eraseIdx i
        ∧ d2.dealt_cards = d.dealt_cards ++ [c] := by
    intro c d2 hok
    rw [next_card] at hok
    split at hok
    · exact absurd hok (by simp)
    · split at hok
      · rename_i c0 hget
        obtain ⟨hi, hgi⟩ := List.getElem?_eq_some.mp hget
        injection hok with hok
        injection hok with hc hd2
        subst hc
        subst hd2
        exact ⟨hi, hgi.symm, rfl, rfl⟩
      · exact absurd hok (by simp)
  have htot : total_count (deck_reset S R) = S.length * R.length := by
    have h0 : (deck_reset S R).dealt_cards.length = 0 := rfl
    rw [total_count, h0, Nat.add_zero]
    exact hlen
  refine ⟨⟨hlen, rfl, htot⟩, ?_, ?_, ?_, ?_, ?_⟩
  · intro hS hR
    simp only [deck_reset, List.append_nil]
    rw [List.nodup_flatMap]
    constructor
    · intro s hs
      refine hR.map ?_
      intro r1 r2 h
      simpa using congrArg Card.rank_int h
    · refine hS.imp ?_
      intro s1 s2 hne
      intro a ha1 ha2
      rcases List.mem_map.mp ha1 with ⟨r1, _, rfl⟩
      rcases List.mem_map.mp ha2 with ⟨r2, _, heq⟩
      have hsuit : s2 = s1 := by simpa using congrArg Card.suit heq
      exact hne hsuit.symm
  · intro hempty j
    simp [next_card, hempty]
  · intro c d2 hok
    obtain ⟨hi, hc, hcards, hdealt⟩ := hok_shape c d2 hok
    have hperm : (d2.cards_in_deck ++ d2.dealt_cards).Perm
        (d.cards_in_deck ++ d.dealt_cards) := by
      have hsplit : d.cards_in_deck =
          d.cards_in_deck.take i ++ c :: d.cards_in_deck.drop (i + 1) := by
        conv_lhs => rw [← List.take_append_drop i d.cards_in_deck]
        rw [← List.getElem_cons_drop d.cards_in_deck i hi, ← hc]
      rw [hcards, hdealt, List.eraseIdx_eq_take_drop_succ]
      conv_rhs => rw [hsplit]
      simp only [List.append_assoc, List.cons_append]
      refine List.Perm.append_left _ ?_
      rw [← List.append_assoc]
      exact List.perm_append_singleton c _
    have hil : 0 < d.cards_in_deck.length := by omega
    refine ⟨?_, ?_, ?_, hperm, ?_⟩
    · rw [deck_len, deck_len, hcards, List.length_eraseIdx, if_pos hi]
    · rw [dealt_count, dealt_count, hdealt, List.length_append, List.length_singleton]
    · rw [total_count, total_count, hcards, hdealt, List.length_eraseIdx, if_pos hi,
        List.length_append, List.length_singleton]
      omega
    · intro hnd
      have hnd2 : (d2.cards_in_deck ++ d2.dealt_cards).Nodup := hperm.symm.nodup hnd
      exact ⟨hnd2, (List.sublist_append_right _ _).nodup hnd2⟩
  · intro hi
    have hi2 : i < d.cards_in_deck.length := hi
    have hne : d.cards_in_deck ≠ [] := by
      intro h
      rw [h] at hi2
      simp at hi2
    refine ⟨d.cards_in_deck[i],
      { cards_in_deck := d.cards_in_deck.eraseIdx i,
        dealt_cards := d.dealt_cards ++ [d.cards_in_deck[i]] }, ?_⟩
    rw [next_card, if_neg hne, List.getElem?_eq_getElem hi2]
  · intro hne
    have hil : 0 < d.cards_in_deck.length := List.length_pos.mpr hne
    have hi2 : d.cards_in_deck.length - 1 < d.cards_in_deck.length := by omega
    refine ⟨d.cards_in_deck[d.cards_in_deck.length - 1],
      { cards_in_deck := d.cards_in_deck.eraseIdx (d.cards_in_deck.length - 1),
        dealt_cards := d.dealt_cards ++
          [d.cards_in_deck[d.cards_in_deck.length - 1]] }, ?_⟩
    rw [pick_sequential_card, next_card, if_neg hne, List.getElem?_eq_getElem hi2]

/-- C9 witness: a two-suit, two-rank deck resets to 4 cards, and picking
at index 0 from a concrete two-card deck succeeds. -/
theorem deck_operations_spec_witness :
    deck_len (deck_reset [Suit.hearts, Suit.spades] [2, 3]) = 4
    ∧ (∃ c d2,
        next_card ⟨[⟨5, .hearts⟩, ⟨7, .clubs⟩], [⟨9, .spades⟩]⟩ 0 = .ok (c, d2)) := by
  have h := deck_operations_spec [Suit.hearts, Suit.spades] [2, 3]
      ⟨[⟨5, .hearts⟩, ⟨7, .clubs⟩], [⟨9, .spades⟩]⟩ 0
  exact ⟨h.1.1, h.2.2.2.2.1 (by decide)⟩

/-!
## Side pots (claim C8)
-/

theorem side_pots_nil : side_pots [] = [] := by
  rw [side_pots]
  simp

theorem side_pots_cons (pot : PotMap) (h : pot ≠ []) :
    side_pots pot = (pot.map (fun p => (p.1, pot_min_chips pot))) ::
      side_pots (side_pots_step pot (pot_min_chips pot)) := by
  rw [side_pots]
  simp [h]

theorem foldl_min_mem {α : Type} [LinearOrder α] (xs : List α) (x : α) :
    xs.foldl min x ∈ x :: xs := by
  induction xs generalizing x with
  | nil => simp
  | cons a as ih =>
    simp only [List.foldl_cons]
    rcases List.mem_cons.mp (ih (min x a)) with h | h
    · rcases min_choice x a with hc | hc <;> rw [h, hc]
      · exact List.mem_cons_self ..
      · simp
    · simp [h]

theorem foldl_min_le {α : Type} [LinearOrder α] (xs : List α) (x : α) :
    ∀ y ∈ x :: xs, xs.foldl min x ≤ y := by
  induction xs generalizing x with
  | nil =>
    intro y hy
    simp only [List.mem_cons, List.not_mem_nil, or_false] at hy
    subst hy
    simp
  | cons a as ih =>
    intro y hy
    simp only [List.foldl_cons]
    rcases List.mem_cons.mp hy with rfl | hy2
    · exact le_trans (ih (min _ a) _ (List.mem_cons_self ..)) (min_le_left _ a)
    · rcases List.mem_cons.mp hy2 with rfl | hy3
      · exact le_trans (ih (min x _) _ (List.mem_cons_self ..)) (min_le_right x _)
      · exact ih (min x a) y (List.mem_cons.mpr (Or.inr hy3))

theorem pot_min_chips_spec (pot : PotMap) (h : pot ≠ []) :
    (∃ x ∈ pot, x.2 = pot_min_chips pot) ∧ ∀ x ∈ pot, pot_min_chips pot ≤ x.2 := by
  match pot, h with
  | q :: qs, _ =>
    have hval : pot_min_chips (q :: qs) = (qs.map Prod.snd).foldl min q.2 := by
      simp [pot_min_chips, List.min?]
    constructor
    · have hm := foldl_min_mem (qs.map Prod.snd) q.2
      rw [← List.map_cons] at hm
      rcases List.mem_map.mp hm with ⟨x, hx, hxv⟩
      exact ⟨x, hx, by rw [hval, hxv]⟩
    · intro x hx
      rw [hval]
      exact foldl_min_le (qs.map Prod.snd) q.2 x.2
        (by rw [← List.map_cons]; exact List.mem_map_of_mem _ hx)

theorem side_pots_step_lt (pot : PotMap) (h : pot ≠ []) :
    (side_pots_step pot (pot_min_chips pot)).length < pot.length := by
  obtain ⟨⟨x, hxm, hxv⟩, _⟩ := pot_min_chips_spec pot h
  have hlt : (side_pots_step pot (pot_min_chips pot)).length <
      (pot.map (fun p => (p.1, p.2 - pot_min_chips pot))).length := by
    apply List.length_filter_lt_length_iff_exists.mpr
    exact ⟨(x.1, x.2 - pot_min_chips pot), List.mem_map_of_mem _ hxm, by simp [hxv]⟩
  simpa using hlt

theorem side_pots_step_keys_sub (pot : PotMap) (m : Int) (p : Nat)
    (hp : p ∈ (side_pots_step pot m).map Prod.fst) : p ∈ pot.map Prod.fst := by
  rcases List.mem_map.mp hp with ⟨y, hy, rfl⟩
  have hy2 := (List.mem_filter.mp hy).1
  rcases List.mem_map.mp hy2 with ⟨q, hq, rfl⟩
  simpa using List.mem_map_of_mem Prod.fst hq

theorem side_pots_step_keys_nodup (pot : PotMap) (m : Int)
    (h : (pot.map Prod.fst).Nodup) :
    ((side_pots_step pot m).map Prod.fst).Nodup := by
  have hsub : ((side_pots_step pot m).map Prod.fst).Sublist
      ((pot.map (fun p => (p.1, p.2 - m))).map Prod.fst) :=
    (List.filter_sublist _).map _
  have heq : (pot.map (fun p => (p.1, p.2 - m))).map Prod.fst = pot.map Prod.fst := by
    simp [List.map_map, Function.comp_def]
  exact (heq ▸ hsub).nodup h

theorem keys_nodup_value_eq (pot : PotMap) (hnd : (pot.map Prod.fst).Nodup)
    (p : Nat) (v w : Int) (h1 : (p, v) ∈ pot) (h2 : (p, w) ∈ pot) : v = w := by
  induction pot with
  | nil => simp at h1
  | cons a as ih =>
    simp only [List.map_cons, List.nodup_cons] at hnd
    rcases List.mem_cons.mp h1 with rfl | h1t
    · rcases List.mem_cons.mp h2 with h2h | h2t
      · exact (congrArg Prod.snd h2h.symm)
      · exact absurd (List.mem_map_of_mem Prod.fst h2t) (by simpa using hnd.1)
    · rcases List.mem_cons.mp h2 with rfl | h2t
      · exact absurd (List.mem_map_of_mem Prod.fst h1t) (by simpa using hnd.1)
      · exact ih hnd.2 h1t h2t

theorem side_pot_amount_layer (pot : PotMap) (m : Int) (p : Nat)
    (hp : p ∈ pot.map Prod.fst) :
    side_pot_amount p (pot.map (fun q => (q.1, m))) = m := by
  induction pot with
  | nil => simp at hp
  | cons a as ih =>
    by_cases hpa : p = a.1
    · subst hpa
      simp [side_pot_amount, List.lookup]
    · have hp2 : p ∈ as.map Prod.fst := by
        rcases List.mem_map.mp hp with ⟨y, hy, rfl⟩
        rcases List.mem_cons.mp hy with rfl | hyt
        · exact absurd rfl hpa
        · exact List.mem_map_of_mem _ hyt
      have := ih hp2
      simpa [side_pot_amount, List.lookup, beq_false_of_ne hpa] using this

theorem side_pot_amount_not_mem (p : Nat) (sp : PotMap)
    (hp : p ∉ sp.map Prod.fst) : side_pot_amount p sp = 0 := by
  induction sp with
  | nil => simp [side_pot_amount, List.lookup]
  | cons a as ih =>
    have hpa : p ≠ a.1 := by
      intro h
      exact hp (by simp [h])
    have hp2 : p ∉ as.map Prod.fst := by
      intro h
      exact hp (by simp [h])
    simpa [side_pot_amount, List.lookup, beq_false_of_ne hpa] using ih hp2

theorem sum_snd_map_sub (pot : PotMap) (m : Int) :
    ((pot.map (fun p => (p.1, p.2 - m))).map Prod.snd).sum
      = (pot.map Prod.snd).sum - pot.length * m := by
  induction pot with
  | nil => simp
  | cons a as ih =>
    simp only [List.map_cons, List.sum_cons, ih, List.length_cons]
    push_cast
    ring

theorem sum_snd_filter_nz (l : PotMap) :
    ((l.filter (fun p => p.2 != 0)).map Prod.snd).sum = (l.map Prod.snd).sum := by
  induction l with
  | nil => simp
  | cons a as ih =>
    by_cases ha : a.2 = 0
    · simp [List.filter_cons, ha, ih]
    · simp [List.filter_cons, ha, ih]

theorem side_pots_player_sum_zero (n : Nat) : ∀ pot : PotMap, pot.length ≤ n →
    ∀ p, p ∉ pot.map Prod.fst → player_side_sum p (side_pots pot) = 0 := by
  induction n with
  | zero =>
    intro pot hlen p hp
    have hnil : pot = [] := List.length_eq_zero.mp (Nat.le_zero.mp hlen)
    subst hnil
    simp [side_pots_nil, player_side_sum]
  | succ n ih =>
    intro pot hlen p hp
    by_cases hpot : pot = []
    · subst hpot
      simp [side_pots_nil, player_side_sum]
    · rw [side_pots_cons pot hpot]
      have hlayer : side_pot_amount p
          (pot.map (fun q => (q.1, pot_min_chips pot))) = 0 := by
        apply side_pot_amount_not_mem
        intro hmem
        apply hp
        rcases List.mem_map.mp hmem with ⟨y, hy, rfl⟩
        rcases List.mem_map.mp hy with ⟨q, hq, rfl⟩
        simpa using List.mem_map_of_mem Prod.fst hq
      have hstep : p ∉ (side_pots_step pot (pot_min_chips pot)).map Prod.fst :=
        fun hmem => hp (side_pots_step_keys_sub _ _ _ hmem)
      have hlen2 : (side_pots_step pot (pot_min_chips pot)).length ≤ n := by
        have := side_pots_step_lt pot hpot
        omega
      have hz := ih _ hlen2 p hstep
      simp only [player_side_sum, List.map_cons, List.sum_cons] at hz ⊢
      rw [hlayer, hz]
      simp

theorem side_pots_player_sum (n : Nat) : ∀ pot : PotMap, pot.length ≤ n →
    (pot.map Prod.fst).Nodup → ∀ p v, (p, v) ∈ pot →
    player_side_sum p (side_pots pot) = v := by
  induction n with
  | zero =>
    intro pot hlen hnd p v hpv
    have hnil : pot = [] := List.length_eq_zero.mp (Nat.le_zero.mp hlen)
    subst hnil
    simp at hpv
  | succ n ih =>
    intro pot hlen hnd p v hpv
    have hpot : pot ≠ [] := by
      rintro rfl
      simp at hpv
    rw [side_pots_cons pot hpot]
    have hpk : p ∈ pot.map Prod.fst := by
      simpa using List.mem_map_of_mem Prod.fst hpv
    have hlayer := side_pot_amount_layer pot (pot_min_chips pot) p hpk
    have hmle : pot_min_chips pot ≤ v :=
      (pot_min_chips_spec pot hpot).2 (p, v) hpv
    have hlen2 : (side_pots_step pot (pot_min_chips pot)).length ≤ n := by
      have := side_pots_step_lt pot hpot
      omega
    by_cases hvm : v - pot_min_chips pot = 0
    · have hstep : p ∉ (side_pots_step pot (pot_min_chips pot)).map Prod.fst := by
        intro hmem
        rcases List.mem_map.mp hmem with ⟨y, hy, hyp⟩
        obtain ⟨hy1, hy2⟩ := List.mem_filter.mp hy
        rcases List.mem_map.mp hy1 with ⟨q, hq, rfl⟩
        have hq1 : q.1 = p := hyp
        have hqmem : (p, q.2) ∈ pot := by
          rw [← hq1]
          exact hq
        have hqv : q.2 = v := keys_nodup_value_eq pot hnd p q.2 v hqmem hpv
        simp [hqv, hvm] at hy2
      have hz := side_pots_player_sum_zero n _ hlen2 p hstep
      simp only [player_side_sum, List.map_cons, List.sum_cons] at hz ⊢
      rw [hlayer, hz]
      omega
    · have hmem : (p, v - pot_min_chips pot) ∈
          side_pots_step pot (pot_min_chips pot) := by
        apply List.mem_filter.mpr
        constructor
        · simpa using
            List.mem_map_of_mem (fun q => (q.1, q.2 - pot_min_chips pot)) hpv
        · simpa using hvm
      have hnd2 := side_pots_step_keys_nodup pot (pot_min_chips pot) hnd
      have hrec := ih _ hlen2 hnd2 p (v - pot_min_chips pot) hmem
      simp only [player_side_sum, List.map_cons, List.sum_cons] at hrec ⊢
      rw [hlayer, hrec]
      omega

theorem side_pots_total_sum (n : Nat) : ∀ pot : PotMap, pot.length ≤ n →
    ((side_pots pot).map (fun sp => (sp.map Prod.snd).sum)).sum = pot_total pot := by
  induction n with
  | zero =>
    intro pot hlen
    have hnil : pot = [] := List.length_eq_zero.mp (Nat.le_zero.mp hlen)
    subst hnil
    simp [side_pots_nil, pot_total]
  | succ n ih =>
    intro pot hlen
    by_cases hpot : pot = []
    · subst hpot
      simp [side_pots_nil, pot_total]
    · rw [side_pots_cons pot hpot]
      have hlen2 : (side_pots_step pot (pot_min_chips pot)).length ≤ n := by
        have := side_pots_step_lt pot hpot
        omega
      have hrest := ih _ hlen2
      simp only [List.map_cons, List.sum_cons, hrest]
      have hlayer : ((pot.map (fun q => (q.1, pot_min_chips pot))).map Prod.snd).sum
          = (pot.length : Int) * pot_min_chips pot := by
        simp [List.map_map, Function.comp_def, List.map_const', List.sum_replicate,
          nsmul_eq_mul]
      have hstep : pot_total (side_pots_step pot (pot_min_chips pot))
          = (pot.map Prod.snd).sum - pot.length * pot_min_chips pot := by
        rw [pot_total, side_pots_step, sum_snd_filter_nz, sum_snd_map_sub]
      rw [hlayer, hstep, pot_total]
      ring

theorem side_pots_layers_const (n : Nat) : ∀ pot : PotMap, pot.length ≤ n →
    ∀ sp ∈ side_pots pot, ∃ m, ∀ x ∈ sp, x.2 = m := by
  induction n with
  | zero =>
    intro pot hlen
    have hnil : pot = [] := List.length_eq_zero.mp (Nat.le_zero.mp hlen)
    subst hnil
    simp [side_pots_nil]
  | succ n ih =>
    intro pot hlen sp hsp
    by_cases hpot : pot = []
    · subst hpot
      simp [side_pots_nil] at hsp
    · rw [side_pots_cons pot hpot] at hsp
      rcases List.mem_cons.mp hsp with rfl | hsp2
      · refine ⟨pot_min_chips pot, ?_⟩
        intro x hx
        rcases List.mem_map.mp hx with ⟨q, hq, rfl⟩
        rfl
      · have hlen2 : (side_pots_step pot (pot_min_chips pot)).length ≤ n := by
          have := side_pots_step_lt pot hpot
          omega
        exact ih _ hlen2 sp hsp2

/-- C8: over any pot state with distinct player keys and nonnegative
contributions, the greedy side-pot partition credits each player, across
all side pots, with exactly that player's stored contribution; the sum of
all side-pot amounts equals `Pot.total`; and within any single side pot
every listed player is assigned the same amount.  (`side_pots` reads the
contribution map and builds a fresh structure, so the stored contributions
are untouched.) -/
theorem side_pots_spec (pot : PotMap) (hkeys : (pot.map Prod.fst).Nodup)
    (hnn : ∀ x ∈ pot, 0 ≤ x.2) :
    (∀ p v, (p, v) ∈ pot → player_side_sum p (side_pots pot) = v)
    ∧ ((side_pots pot).map (fun sp => (sp.map Prod.snd).sum)).sum = pot_total pot
    ∧ (∀ sp ∈ side_pots pot, ∃ m, ∀ x ∈ sp, x.2 = m) :=
  ⟨fun p v h => side_pots_player_sum pot.length pot le_rfl hkeys p v h,
   side_pots_total_sum pot.length pot le_rfl,
   fun sp h => side_pots_layers_const pot.length pot le_rfl sp h⟩

/-- C8 witness: with contributions 50, 200, 200 from players 1, 2, 3 the
side pots credit player 1 with exactly 50 and pay out 450 in total. -/
theorem side_pots_spec_witness :
    player_side_sum 1 (side_pots [(1, 50), (2, 200), (3, 200)]) = 50
    ∧ ((side_pots [(1, 50), (2, 200), (3, 200)]).map
        (fun sp => (sp.map Prod.snd).sum)).sum = 450 := by
  have h := side_pots_spec [(1, 50), (2, 200), (3, 200)] (by decide) (by decide)
  refine ⟨h.1 1 50 (by decide), ?_⟩
  have ht := h.2.1
  have : pot_total [(1, 50), (2, 200), (3, 200)] = 450 := by decide
  rw [this] at ht
  exact ht

/-!
## Evaluator development: permutation invariance of the 5-card primitive
-/

theorem foldr_or_perm {l1 l2 : List Nat} (h : l1.Perm l2) (init : Nat) :
    l1.foldr (· ||| ·) init = l2.foldr (· ||| ·) init := by
  induction h with
  | nil => rfl
  | cons x h ih => simp only [List.foldr_cons, ih]
  | swap x y l =>
    simp only [List.foldr_cons]
    rw [← Nat.or_assoc, Nat.or_comm y x, Nat.or_assoc]
  | trans h1 h2 ih1 ih2 => rw [ih1, ih2]

theorem foldr_and_perm {l1 l2 : List Nat} (h : l1.Perm l2) (init : Nat) :
    l1.foldr (· &&& ·) init = l2.foldr (· &&& ·) init := by
  induction h with
  | nil => rfl
  | cons x h ih => simp only [List.foldr_cons, ih]
  | swap x y l =>
    simp only [List.foldr_cons]
    rw [← Nat.and_assoc, Nat.and_comm y x, Nat.and_assoc]
  | trans h1 h2 ih1 ih2 => rw [ih1, ih2]

theorem rank_or_mask_perm {rs1 rs2 : List Nat} (h : rs1.Perm rs2) :
    rank_or_mask rs1 = rank_or_mask rs2 :=
  foldr_or_perm (h.map rank_bit) 0

theorem prime_product_perm {rs1 rs2 : List Nat} (h : rs1.Perm rs2) :
    prime_product rs1 = prime_product rs2 :=
  (h.map rank_prime).prod_eq

theorem suit_and_perm {cs1 cs2 : List Card} (h : cs1.Perm cs2) :
    suit_and cs1 = suit_and cs2 :=
  foldr_and_perm (h.map (fun c : Card => suit_bit c.suit)) 15

theorem eval_ranks_perm {rs1 rs2 : List Nat} (h : rs1.Perm rs2) (flush : Bool) :
    eval_ranks rs1 flush = eval_ranks rs2 flush := by
  rw [eval_ranks, eval_ranks, rank_or_mask_perm h, prime_product_perm h]

theorem evaluate_five_congr {cs1 cs2 : List Card}
    (h : (cs1.map Card.rank_int).Perm (cs2.map Card.rank_int))
    (hf : (suit_and cs1 != 0) = (suit_and cs2 != 0)) :
    evaluate_five cs1 = evaluate_five cs2 := by
  rw [evaluate_five, evaluate_five, ← hf, eval_ranks_perm h]

theorem evaluate_five_perm {cs1 cs2 : List Card} (h : cs1.Perm cs2) :
    evaluate_five cs1 = evaluate_five cs2 :=
  evaluate_five_congr (h.map Card.rank_int) (by rw [suit_and_perm h])

/-!
## Evaluator development: the rank bitmask
-/

theorem rank_or_mask_testBit (rs : List Nat) (i : Nat) :
    (rank_or_mask rs).testBit i = true ↔ ∃ r ∈ rs, r - 2 = i := by
  induction rs with
  | nil => simp [rank_or_mask, Nat.zero_testBit]
  | cons r rs ih =>
    simp only [rank_or_mask, List.map_cons, List.foldr_cons] at ih ⊢
    rw [Nat.testBit_or]
    simp only [rank_bit, Nat.testBit_two_pow, Bool.or_eq_true, decide_eq_true_eq,
      List.mem_cons, ih]
    constructor
    · rintro (rfl | ⟨x, hx, rfl⟩)
      · exact ⟨r, Or.inl rfl, rfl⟩
      · exact ⟨x, Or.inr hx, rfl⟩
    · rintro ⟨x, rfl | hx, rfl⟩
      · exact Or.inl rfl
      · exact Or.inr ⟨x, hx, rfl⟩

theorem rank_or_mask_lt (rs : List Nat) (h : ∀ r ∈ rs, r ≤ 14) :
    rank_or_mask rs < 8192 := by
  induction rs with
  | nil => simp [rank_or_mask]
  | cons r rs ih =>
    have h1 : rank_bit r < 8192 := by
      have hr : r - 2 ≤ 12 := by
        have := h r (List.mem_cons_self ..)
        omega
      have : (2 : Nat) ^ (r - 2) ≤ 2 ^ 12 :=
        Nat.pow_le_pow_right (by norm_num) hr
      rw [rank_bit]
      omega
    have h2 : rank_or_mask rs < 8192 :=
      ih (fun x hx => h x (List.mem_cons_of_mem r hx))
    have := Nat.or_lt_two_pow (n := 13) (by simpa using h1) (by simpa using h2)
    simpa [rank_or_mask] using this

theorem rank_or_mask_dedup (rs : List Nat) :
    rank_or_mask rs.dedup = rank_or_mask rs := by
  apply Nat.eq_of_testBit_eq
  intro i
  rw [Bool.eq_iff_iff, rank_or_mask_testBit, rank_or_mask_testBit]
  simp [List.mem_dedup]

theorem popcount13_nodup (rs : List Nat) (hnd : rs.Nodup)
    (hv : ∀ r ∈ rs, 2 ≤ r ∧ r ≤ 14) :
    popcount13 (rank_or_mask rs) = rs.length := by
  rw [popcount13, List.countP_eq_length_filter]
  have hperm : ((List.range 13).filter
      (fun i => (rank_or_mask rs).testBit i)).Perm (rs.map (fun r => r - 2)) := by
    have hnd1 : ((List.range 13).filter
        (fun i => (rank_or_mask rs).testBit i)).Nodup :=
      (List.nodup_range 13).filter _
    have hnd2 : (rs.map (fun r => r - 2)).Nodup := by
      apply List.Nodup.map_on ?_ hnd
      intro x hx y hy hxy
      have hx2 := hv x hx
      have hy2 := hv y hy
      omega
    rw [List.perm_ext_iff_of_nodup hnd1 hnd2]
    intro i
    simp only [List.mem_filter, List.mem_range]
    constructor
    · rintro ⟨hi, hb⟩
      rcases (rank_or_mask_testBit rs i).mp hb with ⟨r, hr, hri⟩
      exact List.mem_map.mpr ⟨r, hr, hri⟩
    · intro hm
      rcases List.mem_map.mp hm with ⟨r, hr, rfl⟩
      have := hv r hr
      exact ⟨by omega, (rank_or_mask_testBit rs _).mpr ⟨r, hr, rfl⟩⟩
  rw [hperm.length_eq, List.length_map]

theorem popcount13_eq_five_iff (rs : List Nat) (h5 : rs.length = 5)
    (hv : ∀ r ∈ rs, 2 ≤ r ∧ r ≤ 14) :
    popcount13 (rank_or_mask rs) = 5 ↔ rs.Nodup := by
  constructor
  · intro hpc
    have hd : popcount13 (rank_or_mask rs.dedup) = rs.dedup.length := by
      apply popcount13_nodup _ (List.nodup_dedup rs)
      intro r hr
      exact hv r (List.mem_dedup.mp hr)
    rw [rank_or_mask_dedup] at hd
    have hlen : rs.dedup.length = 5 := by omega
    have heq : rs.dedup = rs :=
      (List.dedup_sublist rs).eq_of_length (by rw [hlen, h5])
    rw [← heq]
    exact List.nodup_dedup rs
  · intro hnd
    rw [popcount13_nodup rs hnd hv, h5]

/-!
## Evaluator development: the suit AND detects flushes
-/

theorem foldr_and_submask (l : List Nat) (init : Nat) :
    ∀ y ∈ l, (l.foldr (· &&& ·) init) &&& y = l.foldr (· &&& ·) init := by
  induction l with
  | nil => simp
  | cons a as ih =>
    intro y hy
    rcases List.mem_cons.mp hy with rfl | hy2
    · simp only [List.foldr_cons]
      rw [Nat.and_assoc, Nat.and_comm _ y, ← Nat.and_assoc, Nat.and_self]
    · simp only [List.foldr_cons]
      rw [Nat.and_assoc, ih y hy2]

theorem suit_bit_disjoint (a b : Suit) (h : a ≠ b) :
    suit_bit a &&& suit_bit b = 0 := by
  cases a <;> cases b <;> first | rfl | exact absurd rfl h

theorem suit_bit_eq_of_submask (m : Nat) (hm : m ≠ 0) (a b : Suit)
    (ha : m &&& suit_bit a = m) (hb : m &&& suit_bit b = m) : a = b := by
  by_cases hab : a = b
  · exact hab
  · exfalso
    apply hm
    calc m = m &&& suit_bit a := ha.symm
      _ = (m &&& suit_bit b) &&& suit_bit a := by rw [hb]
      _ = m &&& (suit_bit b &&& suit_bit a) := Nat.and_assoc _ _ _
      _ = m &&& 0 := by rw [suit_bit_disjoint b a (Ne.symm hab)]
      _ = 0 := Nat.and_zero m

theorem suit_and_all_eq (cs : List Card) (h : suit_and cs ≠ 0) :
    ∀ a ∈ cs, ∀ b ∈ cs, a.suit = b.suit := by
  intro a ha b hb
  have hsub := foldr_and_submask (cs.map (fun c => suit_bit c.suit)) 15
  have ha2 := hsub _ (List.mem_map_of_mem (fun c : Card => suit_bit c.suit) ha)
  have hb2 := hsub _ (List.mem_map_of_mem (fun c : Card => suit_bit c.suit) hb)
  exact suit_bit_eq_of_submask _ h a.suit b.suit ha2 hb2

/-!
## Evaluator development: rank multiplicities of a distinct-card hand
-/

theorem flush_ranks_nodup (cs : List Card) (hnd : cs.Nodup)
    (hsuits : ∀ a ∈ cs, ∀ b ∈ cs, a.suit = b.suit) :
    (cs.map Card.rank_int).Nodup := by
  apply List.Nodup.map_on ?_ hnd
  intro x hx y hy hxy
  have hs := hsuits x hx y hy
  cases x
  cases y
  simp_all

theorem count_rank_le_four (cs : List Card) (hnd : cs.Nodup) (r : Nat) :
    (cs.map Card.rank_int).count r ≤ 4 := by
  have hsub : ((cs.filter (fun c => c.rank_int == r)).map Card.suit).Nodup := by
    apply List.Nodup.map_on ?_ (hnd.filter _)
    intro x hx y hy hxy
    have hxr := (List.mem_filter.mp hx).2
    have hyr := (List.mem_filter.mp hy).2
    cases x
    cases y
    simp_all
  have hle : ((cs.filter (fun c => c.rank_int == r)).map Card.suit).length ≤ 4 := by
    have hcard : Fintype.card Suit = 4 := rfl
    have := hsub.length_le_card
    omega
  rw [List.count, List.countP_map]
  rw [List.countP_eq_length_filter]
  have heq : (List.filter ((fun x => x == r) ∘ Card.rank_int) cs).length
      = ((cs.filter (fun c => c.rank_int == r)).map Card.suit).length := by
    rw [List.length_map]
    rfl
  omega

/-!
## Evaluator development: combinations
-/

theorem combos_mem_sublist : ∀ (l : List α) (n : Nat) (l2 : List α),
    l2 ∈ combos n l → l2.Sublist l ∧ l2.length = n := by
  intro l
  induction l with
  | nil =>
    intro n l2 h
    cases n with
    | zero =>
      simp only [combos, List.mem_singleton] at h
      subst h
      exact ⟨List.Sublist.refl [], rfl⟩
    | succ n => simp [combos] at h
  | cons x xs ih =>
    intro n l2 h
    cases n with
    | zero =>
      simp only [combos, List.mem_singleton] at h
      subst h
      exact ⟨List.nil_sublist _, rfl⟩
    | succ n =>
      rw [combos] at h
      rcases List.mem_append.mp h with h1 | h2
      · rcases List.mem_map.mp h1 with ⟨t, ht, rfl⟩
        obtain ⟨hs, hl⟩ := ih n t ht
        exact ⟨hs.cons₂ x, by simp [hl]⟩
      · obtain ⟨hs, hl⟩ := ih (n + 1) l2 h2
        exact ⟨hs.cons x, hl⟩

theorem combos_complete : ∀ {s l : List α}, s.Sublist l →
    s ∈ combos s.length l := by
  intro s l h
  induction h with
  | slnil => simp [combos]
  | @cons s2 l2 x h ih =>
    cases hl : s2.length with
    | zero =>
      have ht : s2 = [] := List.length_eq_zero.mp hl
      subst ht
      simp [combos]
    | succ n =>
      rw [hl] at ih
      rw [combos]
      exact List.mem_append_right _ ih
  | @cons₂ s2 l2 x h ih =>
    rw [List.length_cons, combos]
    exact List.mem_append_left _ (List.mem_map_of_mem (fun t => x :: t) ih)

theorem combos_length : ∀ (l : List α) (n : Nat),
    (combos n l).length = Nat.choose l.length n := by
  intro l
  induction l with
  | nil =>
    intro n
    cases n <;> simp [combos]
  | cons x xs ih =>
    intro n
    cases n with
    | zero => simp [combos]
    | succ n =>
      simp only [combos, List.length_append, List.length_map, ih,
        List.length_cons, Nat.choose_succ_succ]

theorem combos_ne_nil (l : List α) (n : Nat) (h : n ≤ l.length) :
    combos n l ≠ [] := by
  intro h0
  have hlen := combos_length l n
  rw [h0] at hlen
  have := Nat.choose_pos h
  simp at hlen
  omega

theorem sublist_of_desc : ∀ (L : List Nat), L.Pairwise (· > ·) →
    ∀ (l2 : List Nat), l2.Pairwise (· > ·) → (∀ x ∈ l2, x ∈ L) →
    l2.Sublist L := by
  intro L
  induction L with
  | nil =>
    intro _ l2 _ hm
    cases l2 with
    | nil => simp
    | cons a t => exact absurd (hm a (List.mem_cons_self ..)) (List.not_mem_nil a)
  | cons x xs ih =>
    intro hL l2 hl2 hm
    cases l2 with
    | nil => simp
    | cons y t =>
      by_cases hyx : y = x
      · subst hyx
        apply List.Sublist.cons₂
        apply ih (List.pairwise_cons.mp hL).2 t (List.pairwise_cons.mp hl2).2
        intro e he
        have hlt : y > e := (List.pairwise_cons.mp hl2).1 e he
        rcases List.mem_cons.mp (hm e (List.mem_cons_of_mem y he)) with rfl | h2
        · omega
        · exact h2
      · apply List.Sublist.cons
        apply ih (List.pairwise_cons.mp hL).2 (y :: t) hl2
        intro e he
        rcases List.mem_cons.mp (hm e he) with rfl | h2
        · rcases List.mem_cons.mp he with rfl | h3
          · exact absurd rfl hyx
          · have hy : y ∈ xs := by
              rcases List.mem_cons.mp (hm y (List.mem_cons_self ..)) with h4 | h4
              · exact absurd h4 hyx
              · exact h4
            have hxy : e > y := (List.pairwise_cons.mp hL).1 y hy
            have hyt : y > e := (List.pairwise_cons.mp hl2).1 e h3
            omega
        · exact h2

theorem ranks_desc_sorted : ranks_desc.Pairwise (· > ·) := by
  decide

theorem mem_ranks_desc (r : Nat) : r ∈ ranks_desc ↔ 2 ≤ r ∧ r ≤ 14 := by
  simp only [ranks_desc, List.mem_cons, List.not_mem_nil, or_false]
  omega

/-!
## Evaluator development: the lookup tables
-/

theorem lookup_mem_of_mem_keys : ∀ (l : List (Nat × Nat)) (k : Nat),
    k ∈ l.map Prod.fst → ∃ v, l.lookup k = some v ∧ (k, v) ∈ l := by
  intro l
  induction l with
  | nil =>
    intro k h
    simp at h
  | cons a as ih =>
    intro k h
    by_cases hk : k = a.1
    · subst hk
      refine ⟨a.2, ?_, by simp⟩
      simp [List.lookup]
    · have h2 : k ∈ as.map Prod.fst := by
        rcases List.mem_map.mp h with ⟨y, hy, rfl⟩
        rcases List.mem_cons.mp hy with rfl | hyt
        · exact absurd rfl hk
        · exact List.mem_map_of_mem _ hyt
      obtain ⟨v, hv, hmem⟩ := ih k h2
      refine ⟨v, ?_, List.mem_cons_of_mem _ hmem⟩
      simpa [List.lookup, beq_false_of_ne hk] using hv

theorem straight_masks_length : straight_masks.length = 10 := rfl

theorem flush_nonstraight_length : flush_nonstraight_masks.length = 1277 := rfl

theorem four_of_a_kind_length : four_of_a_kind_products.length = 156 := rfl

theorem full_house_length : full_house_products.length = 156 := rfl

theorem three_of_a_kind_length : three_of_a_kind_products.length = 858 := rfl

theorem two_pair_length : two_pair_products.length = 858 := rfl

theorem pair_products_length : pair_products.length = 2860 := by
  rw [pair_products, List.length_flatMap]
  simp only [Function.comp_def, List.length_map, combos_length]
  decide

theorem flush_table_keys : flush_table.map Prod.fst
    = straight_masks ++ flush_nonstraight_masks := by
  rw [flush_table, List.map_append,
    List.map_fst_zip _ _ (by simp [straight_masks_length]),
    List.map_fst_zip _ _ (by simp [flush_nonstraight_length])]

theorem no_pair_table_keys : no_pair_table.map Prod.fst
    = straight_masks ++ flush_nonstraight_masks := by
  rw [no_pair_table, List.map_append,
    List.map_fst_zip _ _ (by simp [straight_masks_length]),
    List.map_fst_zip _ _ (by simp [flush_nonstraight_length])]

theorem multi_rank_table_keys : multi_rank_table.map Prod.fst
    = four_of_a_kind_products ++ full_house_products
      ++ three_of_a_kind_products ++ two_pair_products ++ pair_products := by
  rw [multi_rank_table]
  repeat rw [List.map_append]
  rw [List.map_fst_zip _ _ (by simp [four_of_a_kind_length]),
    List.map_fst_zip _ _ (by simp [full_house_length]),
    List.map_fst_zip _ _ (by simp [three_of_a_kind_length]),
    List.map_fst_zip _ _ (by simp [two_pair_length]),
    List.map_fst_zip _ _ (by simp [pair_products_length])]

theorem flush_table_value_range (k v : Nat) (h : (k, v) ∈ flush_table) :
    (1 ≤ v ∧ v ≤ 10) ∨ (323 ≤ v ∧ v ≤ 1599) := by
  rcases List.mem_append.mp h with h1 | h1 <;>
  · have hr := List.mem_range'_1.mp (List.of_mem_zip h1).2
    omega

theorem no_pair_table_value_range (k v : Nat) (h : (k, v) ∈ no_pair_table) :
    (1600 ≤ v ∧ v ≤ 1609) ∨ (6186 ≤ v ∧ v ≤ 7462) := by
  rcases List.mem_append.mp h with h1 | h1 <;>
  · have hr := List.mem_range'_1.mp (List.of_mem_zip h1).2
    omega

theorem multi_rank_table_value_range (k v : Nat) (h : (k, v) ∈ multi_rank_table) :
    11 ≤ v ∧ v ≤ 6185 := by
  rw [multi_rank_table] at h
  rcases List.mem_append.mp h with h1 | h1
  rcases List.mem_append.mp h1 with h2 | h2
  rcases List.mem_append.mp h2 with h3 | h3
  rcases List.mem_append.mp h3 with h4 | h4
  all_goals first
  | (have hr := List.mem_range'_1.mp (List.of_mem_zip (by assumption :
      (k, v) ∈ four_of_a_kind_products.zip (List.range' 11 156))).2
     omega)
  | (have hr := List.mem_range'_1.mp (List.of_mem_zip (by assumption :
      (k, v) ∈ full_house_products.zip (List.range' 167 156))).2
     omega)
  | (have hr := List.mem_range'_1.mp (List.of_mem_zip (by assumption :
      (k, v) ∈ three_of_a_kind_products.zip (List.range' 1610 858))).2
     omega)
  | (have hr := List.mem_range'_1.mp (List.of_mem_zip (by assumption :
      (k, v) ∈ two_pair_products.zip (List.range' 2468 858))).2
     omega)
  | (have hr := List.mem_range'_1.mp (List.of_mem_zip (by assumption :
      (k, v) ∈ pair_products.zip (List.range' 3326 2860))).2
     omega)

theorem pairwise_gt_of_ge_nodup {l : List Nat} (h1 : l.Pairwise (· ≥ ·))
    (h2 : l.Nodup) : l.Pairwise (· > ·) := by
  induction l with
  | nil => simp
  | cons a t ih =>
    rw [List.pairwise_cons] at h1 ⊢
    rw [List.nodup_cons] at h2
    refine ⟨fun b hb => lt_of_le_of_ne (h1.1 b hb) ?_, ih h1.2 h2.2⟩
    intro he
    exact h2.1 (he ▸ hb)

theorem mask_mem_five_bit (rs : List Nat) (h5 : rs.length = 5) (hnd : rs.Nodup)
    (hv : ∀ r ∈ rs, 2 ≤ r ∧ r ≤ 14) :
    rank_or_mask rs ∈ five_bit_masks_desc := by
  have hperm : ((rs.insertionSort (· ≤ ·)).reverse).Perm rs :=
    (List.reverse_perm _).trans (List.perm_insertionSort _ rs)
  have hge : ((rs.insertionSort (· ≤ ·)).reverse).Pairwise (· ≥ ·) := by
    rw [List.pairwise_reverse]
    exact List.sorted_insertionSort (· ≤ ·) rs
  have hnd2 : ((rs.insertionSort (· ≤ ·)).reverse).Nodup := hperm.symm.nodup hnd
  have hgt := pairwise_gt_of_ge_nodup hge hnd2
  have hsub : ((rs.insertionSort (· ≤ ·)).reverse).Sublist ranks_desc := by
    apply sublist_of_desc ranks_desc ranks_desc_sorted _ hgt
    intro x hx
    exact (mem_ranks_desc x).mpr (hv x (hperm.mem_iff.mp hx))
  have hmem := combos_complete hsub
  have hlen : ((rs.insertionSort (· ≤ ·)).reverse).length = 5 := by
    rw [hperm.length_eq, h5]
  rw [hlen] at hmem
  have : rank_or_mask ((rs.insertionSort (· ≤ ·)).reverse) ∈ five_bit_masks_desc :=
    List.mem_map_of_mem rank_or_mask hmem
  rwa [rank_or_mask_perm hperm] at this

theorem flush_lookup_ok (rs : List Nat) (h5 : rs.length = 5) (hnd : rs.Nodup)
    (hv : ∀ r ∈ rs, 2 ≤ r ∧ r ≤ 14) :
    ∃ v, flush_table.lookup (rank_or_mask rs) = some v ∧ 1 ≤ v ∧ v ≤ 1599 := by
  have hmem : rank_or_mask rs ∈ flush_table.map Prod.fst := by
    rw [flush_table_keys]
    by_cases hs : rank_or_mask rs ∈ straight_masks
    · exact List.mem_append_left _ hs
    · refine List.mem_append_right _ ?_
      rw [flush_nonstraight_masks]
      refine List.mem_filter.mpr ⟨mask_mem_five_bit rs h5 hnd hv, ?_⟩
      simpa using hs
  obtain ⟨v, hl, hm⟩ := lookup_mem_of_mem_keys _ _ hmem
  have := flush_table_value_range _ _ hm
  exact ⟨v, hl, by omega⟩

theorem no_pair_lookup_ok (rs : List Nat) (h5 : rs.length = 5) (hnd : rs.Nodup)
    (hv : ∀ r ∈ rs, 2 ≤ r ∧ r ≤ 14) :
    ∃ v, no_pair_table.lookup (rank_or_mask rs) = some v
      ∧ 1600 ≤ v ∧ v ≤ 7462 := by
  have hmem : rank_or_mask rs ∈ no_pair_table.map Prod.fst := by
    rw [no_pair_table_keys]
    by_cases hs : rank_or_mask rs ∈ straight_masks
    · exact List.mem_append_left _ hs
    · refine List.mem_append_right _ ?_
      rw [flush_nonstraight_masks]
      refine List.mem_filter.mpr ⟨mask_mem_five_bit rs h5 hnd hv, ?_⟩
      simpa using hs
  obtain ⟨v, hl, hm⟩ := lookup_mem_of_mem_keys _ _ hmem
  have := no_pair_table_value_range _ _ hm
  exact ⟨v, hl, by omega⟩

/-!
## Evaluator development: membership in the paired-class enumerations
-/

theorem desc_list_mem_combos (l : List Nat) (L : List Nat)
    (hL : L.Pairwise (· > ·)) (hl : l.Pairwise (· > ·))
    (hmem : ∀ x ∈ l, x ∈ L) : l ∈ combos l.length L :=
  combos_complete (sublist_of_desc L hL l hl hmem)

theorem filter_ne_sorted (t : Nat) :
    (ranks_desc.filter (fun k => k != t)).Pairwise (· > ·) :=
  ranks_desc_sorted.filter _

theorem mem_filter_ne (x t : Nat) (hx : 2 ≤ x ∧ x ≤ 14) (hne : x ≠ t) :
    x ∈ ranks_desc.filter (fun k => k != t) :=
  List.mem_filter.mpr ⟨(mem_ranks_desc x).mpr hx, by simpa using hne⟩

theorem mem_four_products (q k : Nat) (hq : 2 ≤ q ∧ q ≤ 14)
    (hk : 2 ≤ k ∧ k ≤ 14) (hne : k ≠ q) :
    rank_prime q ^ 4 * rank_prime k ∈ four_of_a_kind_products := by
  rw [four_of_a_kind_products]
  exact List.mem_flatMap.mpr ⟨q, (mem_ranks_desc q).mpr hq,
    List.mem_map.mpr ⟨k, mem_filter_ne k q hk hne, rfl⟩⟩

theorem mem_fh_products (t p : Nat) (ht : 2 ≤ t ∧ t ≤ 14)
    (hp : 2 ≤ p ∧ p ≤ 14) (hne : p ≠ t) :
    rank_prime t ^ 3 * rank_prime p ^ 2 ∈ full_house_products := by
  rw [full_house_products]
  exact List.mem_flatMap.mpr ⟨t, (mem_ranks_desc t).mpr ht,
    List.mem_map.mpr ⟨p, mem_filter_ne p t hp hne, rfl⟩⟩

theorem mem_trips_products (t k1 k2 : Nat) (ht : 2 ≤ t ∧ t ≤ 14)
    (hk1 : 2 ≤ k1 ∧ k1 ≤ 14) (hk2 : 2 ≤ k2 ∧ k2 ≤ 14) (h12 : k1 > k2)
    (hne1 : k1 ≠ t) (hne2 : k2 ≠ t) :
    rank_prime t ^ 3 * ([k1, k2].map rank_prime).prod
      ∈ three_of_a_kind_products := by
  rw [three_of_a_kind_products]
  refine List.mem_flatMap.mpr ⟨t, (mem_ranks_desc t).mpr ht, ?_⟩
  refine List.mem_map.mpr ⟨[k1, k2], ?_, rfl⟩
  have hmem := desc_list_mem_combos [k1, k2] (ranks_desc.filter (fun k => k != t))
    (filter_ne_sorted t) (by simp [h12]) ?_
  · exact hmem
  · intro x hx
    rcases List.mem_cons.mp hx with rfl | hx2
    · exact mem_filter_ne x t hk1 hne1
    · rcases List.mem_cons.mp hx2 with rfl | hx3
      · exact mem_filter_ne x t hk2 hne2
      · simp at hx3

theorem mem_twopair_products (p1 p2 k : Nat) (hp1 : 2 ≤ p1 ∧ p1 ≤ 14)
    (hp2 : 2 ≤ p2 ∧ p2 ≤ 14) (h12 : p1 > p2) (hk : 2 ≤ k ∧ k ≤ 14)
    (hne1 : k ≠ p1) (hne2 : k ≠ p2) :
    ([p1, p2].map (fun p => rank_prime p ^ 2)).prod * rank_prime k
      ∈ two_pair_products := by
  rw [two_pair_products]
  refine List.mem_flatMap.mpr ⟨[p1, p2], ?_, ?_⟩
  · have hmem := desc_list_mem_combos [p1, p2] ranks_desc ranks_desc_sorted
      (by simp [h12]) ?_
    · exact hmem
    · intro x hx
      rcases List.mem_cons.mp hx with rfl | hx2
      · exact (mem_ranks_desc x).mpr hp1
      · rcases List.mem_cons.mp hx2 with rfl | hx3
        · exact (mem_ranks_desc x).mpr hp2
        · simp at hx3
  · refine List.mem_map.mpr ⟨k, List.mem_filter.mpr ⟨(mem_ranks_desc k).mpr hk, ?_⟩, rfl⟩
    simp [hne1, hne2]

theorem mem_pair_products (p k1 k2 k3 : Nat) (hp : 2 ≤ p ∧ p ≤ 14)
    (hk1 : 2 ≤ k1 ∧ k1 ≤ 14) (hk2 : 2 ≤ k2 ∧ k2 ≤ 14) (hk3 : 2 ≤ k3 ∧ k3 ≤ 14)
    (h12 : k1 > k2) (h23 : k2 > k3)
    (hne1 : k1 ≠ p) (hne2 : k2 ≠ p) (hne3 : k3 ≠ p) :
    rank_prime p ^ 2 * ([k1, k2, k3].map rank_prime).prod ∈ pair_products := by
  rw [pair_products]
  refine List.mem_flatMap.mpr ⟨p, (mem_ranks_desc p).mpr hp, ?_⟩
  refine List.mem_map.mpr ⟨[k1, k2, k3], ?_, rfl⟩
  have hmem := desc_list_mem_combos [k1, k2, k3] (ranks_desc.filter (fun k => k != p))
    (filter_ne_sorted p) (by simp [h12, h23]; omega) ?_
  · exact hmem
  · intro x hx
    rcases List.mem_cons.mp hx with rfl | hx2
    · exact mem_filter_ne x p hk1 hne1
    · rcases List.mem_cons.mp hx2 with rfl | hx3
      · exact mem_filter_ne x p hk2 hne2
      · rcases List.mem_cons.mp hx3 with rfl | hx4
        · exact mem_filter_ne x p hk3 hne3
        · simp at hx4

/-- Every 5-rank multiset that can arise from 5 distinct cards and is not
5 distinct ranks has its prime product among the keys of
`multi_rank_table`: case analysis over the multiset shape (quads, full
house, trips, two pair, one pair). -/
theorem prime_product_mem_multi (a b c d e : Nat)
    (hab : a ≥ b) (hbc : b ≥ c) (hcd : c ≥ d) (hde : d ≥ e)
    (ha : a ≤ 14) (he : 2 ≤ e)
    (hnd : ¬ ([a, b, c, d, e] : List Nat).Nodup)
    (hall : ¬ (a = b ∧ b = c ∧ c = d ∧ d = e)) :
    prime_product [a, b, c, d, e] ∈ multi_rank_table.map Prod.fst := by
  rw [multi_rank_table_keys]
  by_cases h1 : a = b <;> by_cases h2 : b = c <;>
    by_cases h3 : c = d <;> by_cases h4 : d = e
  · exact absurd ⟨h1, h2, h3, h4⟩ hall
  · subst h1; subst h2; subst h3
    have hprod : prime_product [a, a, a, a, e]
        = rank_prime a ^ 4 * rank_prime e := by
      simp [prime_product]
      ring
    rw [hprod]
    exact List.mem_append_left _ (List.mem_append_left _ (List.mem_append_left _
      (List.mem_append_left _
        (mem_four_products a e (by omega) (by omega) (by omega)))))
  · subst h1; subst h2; subst h4
    have hprod : prime_product [a, a, a, d, d]
        = rank_prime a ^ 3 * rank_prime d ^ 2 := by
      simp [prime_product]
      ring
    rw [hprod]
    exact List.mem_append_left _ (List.mem_append_left _ (List.mem_append_left _
      (List.mem_append_right _
        (mem_fh_products a d (by omega) (by omega) (by omega)))))
  · subst h1; subst h2
    have hprod : prime_product [a, a, a, d, e]
        = rank_prime a ^ 3 * ([d, e].map rank_prime).prod := by
      simp [prime_product]
      ring
    rw [hprod]
    exact List.mem_append_left _ (List.mem_append_left _ (List.mem_append_right _
      (mem_trips_products a d e (by omega) (by omega) (by omega) (by omega)
        (by omega) (by omega))))
  · subst h1; subst h3; subst h4
    have hprod : prime_product [a, a, c, c, c]
        = rank_prime c ^ 3 * rank_prime a ^ 2 := by
      simp [prime_product]
      ring
    rw [hprod]
    exact List.mem_append_left _ (List.mem_append_left _ (List.mem_append_left _
      (List.mem_append_right _
        (mem_fh_products c a (by omega) (by omega) (by omega)))))
  · subst h1; subst h3
    have hprod : prime_product [a, a, c, c, e]
        = ([a, c].map (fun p => rank_prime p ^ 2)).prod * rank_prime e := by
      simp [prime_product]
      ring
    rw [hprod]
    exact List.mem_append_left _ (List.mem_append_right _
      (mem_twopair_products a c e (by omega) (by omega) (by omega) (by omega)
        (by omega) (by omega)))
  · subst h1; subst h4
    have hprod : prime_product [a, a, c, d, d]
        = ([a, d].map (fun p => rank_prime p ^ 2)).prod * rank_prime c := by
      simp [prime_product]
      ring
    rw [hprod]
    exact List.mem_append_left _ (List.mem_append_right _
      (mem_twopair_products a d c (by omega) (by omega) (by omega) (by omega)
        (by omega) (by omega)))
  · subst h1
    have hprod : prime_product [a, a, c, d, e]
        = rank_prime a ^ 2 * ([c, d, e].map rank_prime).prod := by
      simp [prime_product]
      ring
    rw [hprod]
    exact List.mem_append_right _
      (mem_pair_products a c d e (by omega) (by omega) (by omega) (by omega)
        (by omega) (by omega) (by omega) (by omega) (by omega))
  · subst h2; subst h3; subst h4
    have hprod : prime_product [a, b, b, b, b]
        = rank_prime b ^ 4 * rank_prime a := by
      simp [prime_product]
      ring
    rw [hprod]
    exact List.mem_append_left _ (List.mem_append_left _ (List.mem_append_left _
      (List.mem_append_left _
        (mem_four_products b a (by omega) (by omega) (by omega)))))
  · subst h2; subst h3
    have hprod : prime_product [a, b, b, b, e]
        = rank_prime b ^ 3 * ([a, e].map rank_prime).prod := by
      simp [prime_product]
      ring
    rw [hprod]
    exact List.mem_append_left _ (List.mem_append_left _ (List.mem_append_right _
      (mem_trips_products b a e (by omega) (by omega) (by omega) (by omega)
        (by omega) (by omega))))
  · subst h2; subst h4
    have hprod : prime_product [a, b, b, d, d]
        = ([b, d].map (fun p => rank_prime p ^ 2)).prod * rank_prime a := by
      simp [prime_product]
      ring
    rw [hprod]
    exact List.mem_append_left _ (List.mem_append_right _
      (mem_twopair_products b d a (by omega) (by omega) (by omega) (by omega)
        (by omega) (by omega)))
  · subst h2
    have hprod : prime_product [a, b, b, d, e]
        = rank_prime b ^ 2 * ([a, d, e].map rank_prime).prod := by
      simp [prime_product]
      ring
    rw [hprod]
    exact List.mem_append_right _
      (mem_pair_products b a d e (by omega) (by omega) (by omega) (by omega)
        (by omega) (by omega) (by omega) (by omega) (by omega))
  · subst h3; subst h4
    have hprod : prime_product [a, b, c, c, c]
        = rank_prime c ^ 3 * ([a, b].map rank_prime).prod := by
      simp [prime_product]
      ring
    rw [hprod]
    exact List.mem_append_left _ (List.mem_append_left _ (List.mem_append_right _
      (mem_trips_products c a b (by omega) (by omega) (by omega) (by omega)
        (by omega) (by omega))))
  · subst h3
    have hprod : prime_product [a, b, c, c, e]
        = rank_prime c ^ 2 * ([a, b, e].map rank_prime).prod := by
      simp [prime_product]
      ring
    rw [hprod]
    exact List.mem_append_right _
      (mem_pair_products c a b e (by omega) (by omega) (by omega) (by omega)
        (by omega) (by omega) (by omega) (by omega) (by omega))
  · subst h4
    have hprod : prime_product [a, b, c, d, d]
        = rank_prime d ^ 2 * ([a, b, c].map rank_prime).prod := by
      simp [prime_product]
      ring
    rw [hprod]
    exact List.mem_append_right _
      (mem_pair_products d a b c (by omega) (by omega) (by omega) (by omega)
        (by omega) (by omega) (by omega) (by omega) (by omega))
  · exfalso
    apply hnd
    simp only [List.nodup_cons, List.mem_cons, List.not_mem_nil, or_false,
      List.nodup_nil, and_true, not_or, not_false_eq_true]
    omega

theorem list_length_five {α : Type} (l : List α) (h : l.length = 5) :
    ∃ a b c d e, l = [a, b, c, d, e] := by
  rcases l with _ | ⟨a, l⟩
  · simp at h
  rcases l with _ | ⟨b, l⟩
  · simp at h
  rcases l with _ | ⟨c, l⟩
  · simp at h
  rcases l with _ | ⟨d, l⟩
  · simp at h
  rcases l with _ | ⟨e, l⟩
  · simp at h
  rcases l with _ | ⟨f, l⟩
  · exact ⟨a, b, c, d, e, rfl⟩
  · simp only [List.length_cons] at h
    omega

theorem prime_product_mem_multi_of_perm (rs : List Nat) (h5 : rs.length = 5)
    (hv : ∀ r ∈ rs, 2 ≤ r ∧ r ≤ 14) (hnd : ¬ rs.Nodup)
    (hc : ∀ r, rs.count r ≤ 4) :
    prime_product rs ∈ multi_rank_table.map Prod.fst := by
  have hperm : ((rs.insertionSort (· ≤ ·)).reverse).Perm rs :=
    (List.reverse_perm _).trans (List.perm_insertionSort _ rs)
  have hge : ((rs.insertionSort (· ≤ ·)).reverse).Pairwise (· ≥ ·) := by
    rw [List.pairwise_reverse]
    exact List.sorted_insertionSort (· ≤ ·) rs
  have hlen : ((rs.insertionSort (· ≤ ·)).reverse).length = 5 := by
    rw [hperm.length_eq, h5]
  obtain ⟨a, b, c, d, e, hS⟩ := list_length_five _ hlen
  rw [hS] at hperm hge
  rw [← prime_product_perm hperm]
  simp only [List.pairwise_cons, List.mem_cons, List.not_mem_nil, or_false,
    forall_eq_or_imp, forall_eq, false_implies, implies_true, and_true] at hge
  have hva : 2 ≤ a ∧ a ≤ 14 := hv a (hperm.mem_iff.mp (by simp))
  have hve : 2 ≤ e ∧ e ≤ 14 := hv e (hperm.mem_iff.mp (by simp))
  apply prime_product_mem_multi a b c d e
    (by omega) (by omega) (by omega) (by omega) hva.2 hve.1
  · intro hnd2
    exact hnd (hperm.nodup hnd2)
  · rintro ⟨rfl, rfl, rfl, rfl⟩
    have hcnt := hc a
    rw [← hperm.count_eq] at hcnt
    simp [List.count_cons] at hcnt

theorem multi_lookup_ok (rs : List Nat) (h5 : rs.length = 5)
    (hv : ∀ r ∈ rs, 2 ≤ r ∧ r ≤ 14) (hnd : ¬ rs.Nodup)
    (hc : ∀ r, rs.count r ≤ 4) :
    ∃ v, multi_rank_table.lookup (prime_product rs) = some v
      ∧ 11 ≤ v ∧ v ≤ 6185 := by
  obtain ⟨v, hl, hm⟩ := lookup_mem_of_mem_keys _ _
    (prime_product_mem_multi_of_perm rs h5 hv hnd hc)
  exact ⟨v, hl, multi_rank_table_value_range _ _ hm⟩

/-- The 5-card primitive always produces a boundary-table score on 5
distinct valid cards; a non-flush hand of 5 distinct ranks scores at
worst-straight level or below (1600 and up). -/
theorem evaluate_five_ok (cs : List Card) (h5 : cs.length = 5) (hnd : cs.Nodup)
    (hv : ∀ c ∈ cs, c.valid) :
    ∃ s, evaluate_five cs = some s ∧ 1 ≤ s ∧ s ≤ 7462
      ∧ (suit_and cs = 0 → (cs.map Card.rank_int).Nodup → 1600 ≤ s) := by
  have hlen : (cs.map Card.rank_int).length = 5 := by rw [List.length_map, h5]
  have hv2 : ∀ r ∈ cs.map Card.rank_int, 2 ≤ r ∧ r ≤ 14 := by
    intro r hr
    rcases List.mem_map.mp hr with ⟨c, hc, rfl⟩
    exact hv c hc
  by_cases hfl : suit_and cs = 0
  · have hflag : (suit_and cs != 0) = false := by simp [hfl]
    by_cases hrnd : (cs.map Card.rank_int).Nodup
    · have hpc : popcount13 (rank_or_mask (cs.map Card.rank_int)) = 5 :=
        (popcount13_eq_five_iff _ hlen hv2).mpr hrnd
      obtain ⟨v, hl, hva, hvb⟩ := no_pair_lookup_ok _ hlen hrnd hv2
      refine ⟨v, ?_, by omega, by omega, fun _ _ => hva⟩
      rw [evaluate_five, hflag, eval_ranks]
      simp [hpc, hl]
    · have hpc : popcount13 (rank_or_mask (cs.map Card.rank_int)) ≠ 5 := by
        intro h
        exact hrnd ((popcount13_eq_five_iff _ hlen hv2).mp h)
      have hcnt : ∀ r, (cs.map Card.rank_int).count r ≤ 4 :=
        fun r => count_rank_le_four cs hnd r
      obtain ⟨v, hl, hva, hvb⟩ := multi_lookup_ok _ hlen hv2 hrnd hcnt
      refine ⟨v, ?_, by omega, by omega, fun _ h => absurd h hrnd⟩
      rw [evaluate_five, hflag, eval_ranks]
      simp [hpc, hl]
  · have hflag : (suit_and cs != 0) = true := by simp [hfl]
    have hsuits := suit_and_all_eq cs hfl
    have hrnd := flush_ranks_nodup cs hnd hsuits
    obtain ⟨v, hl, hva, hvb⟩ := flush_lookup_ok _ hlen hrnd hv2
    refine ⟨v, ?_, by omega, by omega, fun h0 _ => absurd h0 hfl⟩
    rw [evaluate_five, hflag, eval_ranks]
    simp [hl]

/-!
## Evaluator development: the best-of-5 search
-/

theorem collect_scores_eq_map (opts : List (Option Nat)) (xs : List Nat)
    (h : collect_scores opts = some xs) : opts = xs.map some := by
  induction opts generalizing xs with
  | nil =>
    rw [collect_scores] at h
    injection h with h
    rw [← h]
    rfl
  | cons o os ih =>
    cases o with
    | none => simp [collect_scores] at h
    | some x =>
      rw [collect_scores] at h
      cases hcs : collect_scores os with
      | none =>
        rw [hcs] at h
        simp at h
      | some ys =>
        rw [hcs] at h
        simp only [Option.map_some', Option.some.injEq] at h
        rw [← h, List.map_cons, ih ys hcs]

theorem collect_scores_all_some (opts : List (Option Nat))
    (h : ∀ o ∈ opts, ∃ t, o = some t) :
    ∃ xs, collect_scores opts = some xs := by
  induction opts with
  | nil => exact ⟨[], rfl⟩
  | cons o os ih =>
    obtain ⟨t, rfl⟩ := h o (List.mem_cons_self ..)
    obtain ⟨xs, hxs⟩ := ih (fun o ho => h o (List.mem_cons_of_mem _ ho))
    refine ⟨t :: xs, ?_⟩
    rw [collect_scores, hxs]
    rfl

theorem best_of_spec (cs : List Card) (hne : combos 5 cs ≠ [])
    (hall : ∀ b ∈ combos 5 cs, ∃ t, evaluate_five b = some t) :
    ∃ s, best_of cs = some s
      ∧ (∃ b ∈ combos 5 cs, evaluate_five b = some s)
      ∧ (∀ b ∈ combos 5 cs, ∀ t, evaluate_five b = some t → s ≤ t) := by
  obtain ⟨xs, hxs⟩ := collect_scores_all_some ((combos 5 cs).map evaluate_five)
    (by
      intro o ho
      rcases List.mem_map.mp ho with ⟨b, hb, rfl⟩
      exact hall b hb)
  have hmapeq := collect_scores_eq_map _ _ hxs
  cases xs with
  | nil =>
    exfalso
    apply hne
    have hmap : (combos 5 cs).map evaluate_five = [] := by
      rw [hmapeq]
      rfl
    simpa using hmap
  | cons s0 rest =>
    refine ⟨rest.foldl min s0, ?_, ?_, ?_⟩
    · rw [best_of, hxs]
    · have hmem : rest.foldl min s0 ∈ s0 :: rest := foldl_min_mem rest s0
      have hmm : some (rest.foldl min s0) ∈ (combos 5 cs).map evaluate_five := by
        rw [hmapeq]
        exact List.mem_map_of_mem some hmem
      rcases List.mem_map.mp hmm with ⟨b, hb, hbe⟩
      exact ⟨b, hb, hbe⟩
    · intro b hb t ht
      have hmm : some t ∈ (combos 5 cs).map evaluate_five := by
        rw [← ht]
        exact List.mem_map_of_mem evaluate_five hb
      rw [hmapeq] at hmm
      rcases List.mem_map.mp hmm with ⟨y, hy, hys⟩
      injection hys with hys
      rw [← hys]
      exact foldl_min_le rest s0 y hy

/-- Every 5-card subset produced by the combination search inherits
length, distinctness and validity from the combined hand. -/
theorem combos_five_props (cs : List Card) (hnd : cs.Nodup)
    (hv : ∀ c ∈ cs, c.valid) :
    ∀ b ∈ combos 5 cs, b.length = 5 ∧ b.Nodup ∧ ∀ c ∈ b, c.valid := by
  intro b hb
  obtain ⟨hsub, hlen⟩ := combos_mem_sublist cs 5 b hb
  exact ⟨hlen, hsub.nodup hnd, fun c hc => hv c (hsub.subset hc)⟩

/-- The full `evaluate`: on a valid 5/6/7-card input it returns a score in
`[1, 7462]` that is the minimum of the 5-card evaluations over all 5-card
subsets. -/
theorem evaluate_ok (hole board : List Card)
    (hlen : (hole ++ board).length = 5 ∨ (hole ++ board).length = 6
      ∨ (hole ++ board).length = 7)
    (hnd : (hole ++ board).Nodup) (hv : ∀ c ∈ hole ++ board, c.valid) :
    ∃ s, evaluate hole board = .ok s ∧ 1 ≤ s ∧ s ≤ 7462
      ∧ (∃ b ∈ combos 5 (hole ++ board), evaluate_five b = some s)
      ∧ (∀ b ∈ combos 5 (hole ++ board), ∀ t,
          evaluate_five b = some t → s ≤ t) := by
  have hne : combos 5 (hole ++ board) ≠ [] := combos_ne_nil _ 5 (by omega)
  have hall : ∀ b ∈ combos 5 (hole ++ board),
      ∃ t, evaluate_five b = some t ∧ 1 ≤ t ∧ t ≤ 7462 := by
    intro b hb
    obtain ⟨h1, h2, h3⟩ := combos_five_props _ hnd hv b hb
    obtain ⟨t, ht, hr1, hr2, _⟩ := evaluate_five_ok b h1 h2 h3
    exact ⟨t, ht, hr1, hr2⟩
  obtain ⟨s, hbo, hmem, hmin⟩ := best_of_spec _ hne
    (fun b hb => (hall b hb).imp (fun t h => h.1))
  obtain ⟨b0, hb0, hb0e⟩ := hmem
  obtain ⟨t0, ht0, ht0r⟩ := hall b0 hb0
  have hts : t0 = s := by
    rw [ht0] at hb0e
    injection hb0e
  refine ⟨s, ?_, by omega, by omega, ⟨b0, hb0, hb0e⟩, hmin⟩
  rw [evaluate]
  rw [if_neg (not_not_intro hlen), if_neg (not_not_intro hnd), hbo]

/-- `get_rank_class` on an in-range score yields the class id given by the
boundary table, and `class_to_string` names it canonically. -/
theorem get_rank_class_spec (s : Nat) (h1 : 1 ≤ s) (h2 : s ≤ 7462) :
    ∃ cid, get_rank_class s = some cid
      ∧ (1 ≤ cid ∧ cid ≤ 9
        ∧ (cid = 1 ↔ 1 ≤ s ∧ s ≤ 10)
        ∧ (cid = 2 ↔ 11 ≤ s ∧ s ≤ 166)
        ∧ (cid = 3 ↔ 167 ≤ s ∧ s ≤ 322)
        ∧ (cid = 4 ↔ 323 ≤ s ∧ s ≤ 1599)
        ∧ (cid = 5 ↔ 1600 ≤ s ∧ s ≤ 1609)
        ∧ (cid = 6 ↔ 1610 ≤ s ∧ s ≤ 2467)
        ∧ (cid = 7 ↔ 2468 ≤ s ∧ s ≤ 3325)
        ∧ (cid = 8 ↔ 3326 ≤ s ∧ s ≤ 6185)
        ∧ (cid = 9 ↔ 6186 ≤ s ∧ s ≤ 7462))
      ∧ (s ≤ 10 → class_to_string cid = "Straight Flush")
      ∧ (11 ≤ s ∧ s ≤ 166 → class_to_string cid = "Four of a Kind")
      ∧ (167 ≤ s ∧ s ≤ 322 → class_to_string cid = "Full House")
      ∧ (323 ≤ s ∧ s ≤ 1599 → class_to_string cid = "Flush")
      ∧ (1600 ≤ s ∧ s ≤ 1609 → class_to_string cid = "Straight")
      ∧ (1610 ≤ s ∧ s ≤ 2467 → class_to_string cid = "Three of a Kind")
      ∧ (2468 ≤ s ∧ s ≤ 3325 → class_to_string cid = "Two Pair")
      ∧ (3326 ≤ s ∧ s ≤ 6185 → class_to_string cid = "Pair")
      ∧ (6186 ≤ s → class_to_string cid = "High Card") := by
  rw [get_rank_class, if_neg (by omega)]
  split_ifs with a1 a2 a3 a4 a5 a6 a7 a8
  · refine ⟨1, rfl, by omega, ?_, ?_, ?_, ?_, ?_, ?_, ?_, ?_, ?_⟩ <;>
      first | (intro _; rfl) | (intro hx; exfalso; omega)
  · refine ⟨2, rfl, by omega, ?_, ?_, ?_, ?_, ?_, ?_, ?_, ?_, ?_⟩ <;>
      first | (intro _; rfl) | (intro hx; exfalso; omega)
  · refine ⟨3, rfl, by omega, ?_, ?_, ?_, ?_, ?_, ?_, ?_, ?_, ?_⟩ <;>
      first | (intro _; rfl) | (intro hx; exfalso; omega)
  · refine ⟨4, rfl, by omega, ?_, ?_, ?_, ?_, ?_, ?_, ?_, ?_, ?_⟩ <;>
      first | (intro _; rfl) | (intro hx; exfalso; omega)
  · refine ⟨5, rfl, by omega, ?_, ?_, ?_, ?_, ?_, ?_, ?_, ?_, ?_⟩ <;>
      first | (intro _; rfl) | (intro hx; exfalso; omega)
  · refine ⟨6, rfl, by omega, ?_, ?_, ?_, ?_, ?_, ?_, ?_, ?_, ?_⟩ <;>
      first | (intro _; rfl) | (intro hx; exfalso; omega)
  · refine ⟨7, rfl, by omega, ?_, ?_, ?_, ?_, ?_, ?_, ?_, ?_, ?_⟩ <;>
      first | (intro _; rfl) | (intro hx; exfalso; omega)
  · refine ⟨8, rfl, by omega, ?_, ?_, ?_, ?_, ?_, ?_, ?_, ?_, ?_⟩ <;>
      first | (intro _; rfl) | (intro hx; exfalso; omega)
  · refine ⟨9, rfl, by omega, ?_, ?_, ?_, ?_, ?_, ?_, ?_, ?_, ?_⟩ <;>
      first | (intro _; rfl) | (intro hx; exfalso; omega)

/-- C1: every valid hand of 5, 6 or 7 distinct cards evaluates to a score
in `[1, 7462]`; `get_rank_class` maps the score to one of the 9 class ids
exactly per the boundary table (Straight Flush 1-10, Four of a Kind
11-166, Full House 167-322, Flush 323-1599, Straight 1600-1609, Three of
a Kind 1610-2467, Two Pair 2468-3325, Pair 3326-6185, High Card
6186-7462), and `class_to_string` returns the matching canonical name. -/
theorem evaluate_score_class_names (hole board : List Card)
    (hlen : (hole ++ board).length = 5 ∨ (hole ++ board).length = 6
      ∨ (hole ++ board).length = 7)
    (hnd : (hole ++ board).Nodup) (hv : ∀ c ∈ hole ++ board, c.valid) :
    ∃ s cid, evaluate hole board = .ok s ∧ 1 ≤ s ∧ s ≤ 7462
      ∧ get_rank_class s = some cid
      ∧ (1 ≤ cid ∧ cid ≤ 9
        ∧ (cid = 1 ↔ 1 ≤ s ∧ s ≤ 10)
        ∧ (cid = 2 ↔ 11 ≤ s ∧ s ≤ 166)
        ∧ (cid = 3 ↔ 167 ≤ s ∧ s ≤ 322)
        ∧ (cid = 4 ↔ 323 ≤ s ∧ s ≤ 1599)
        ∧ (cid = 5 ↔ 1600 ≤ s ∧ s ≤ 1609)
        ∧ (cid = 6 ↔ 1610 ≤ s ∧ s ≤ 2467)
        ∧ (cid = 7 ↔ 2468 ≤ s ∧ s ≤ 3325)
        ∧ (cid = 8 ↔ 3326 ≤ s ∧ s ≤ 6185)
        ∧ (cid = 9 ↔ 6186 ≤ s ∧ s ≤ 7462))
      ∧ (s ≤ 10 → class_to_string cid = "Straight Flush")
      ∧ (11 ≤ s ∧ s ≤ 166 → class_to_string cid = "Four of a Kind")
      ∧ (167 ≤ s ∧ s ≤ 322 → class_to_string cid = "Full House")
      ∧ (323 ≤ s ∧ s ≤ 1599 → class_to_string cid = "Flush")
      ∧ (1600 ≤ s ∧ s ≤ 1609 → class_to_string cid = "Straight")
      ∧ (1610 ≤ s ∧ s ≤ 2467 → class_to_string cid = "Three of a Kind")
      ∧ (2468 ≤ s ∧ s ≤ 3325 → class_to_string cid = "Two Pair")
      ∧ (3326 ≤ s ∧ s ≤ 6185 → class_to_string cid = "Pair")
      ∧ (6186 ≤ s → class_to_string cid = "High Card") := by
  obtain ⟨s, hok, h1, h2, _, _⟩ := evaluate_ok hole board hlen hnd hv
  obtain ⟨cid, hcid, harith, hnames⟩ := get_rank_class_spec s h1 h2
  exact ⟨s, cid, hok, h1, h2, hcid, harith, hnames⟩

/-- C1 witness: the royal flush in hearts evaluates to a defined score in
range classed as id 1, named Straight Flush. -/
theorem evaluate_score_class_names_witness :
    ∃ s cid,
      evaluate [⟨14, .hearts⟩, ⟨13, .hearts⟩]
          [⟨12, .hearts⟩, ⟨11, .hearts⟩, ⟨10, .hearts⟩] = .ok s
      ∧ 1 ≤ s ∧ s ≤ 7462 ∧ get_rank_class s = some cid
      ∧ 1 ≤ cid ∧ cid ≤ 9 := by
  obtain ⟨s, cid, hok, h1, h2, hcid, harith, _⟩ :=
    evaluate_score_class_names [⟨14, .hearts⟩, ⟨13, .hearts⟩]
      [⟨12, .hearts⟩, ⟨11, .hearts⟩, ⟨10, .hearts⟩]
      (by decide) (by decide) (by decide)
  exact ⟨s, cid, hok, h1, h2, hcid, harith.1, harith.2.1⟩

/-!
## Single-5-card-hand reduction and the remaining evaluator claims
-/

theorem combos_self {α : Type} : ∀ (l : List α), combos l.length l = [l] := by
  intro l
  induction l with
  | nil => rfl
  | cons x xs ih =>
    rw [List.length_cons, combos, ih]
    have h2 : combos (xs.length + 1) xs = [] := by
      have hlen := combos_length xs (xs.length + 1)
      rw [Nat.choose_eq_zero_of_lt (by omega)] at hlen
      exact List.length_eq_zero.mp hlen
    rw [h2]
    rfl

/-- On a 5-card hand the combination search degenerates to the single
subset, so `evaluate` is the 5-card primitive. -/
theorem evaluate_five_card (cs : List Card) (h5 : cs.length = 5)
    (hnd : cs.Nodup) :
    evaluate cs [] =
      match evaluate_five cs with
      | some s => .ok s
      | none => .error .tableMiss := by
  rw [evaluate]
  simp only [List.append_nil]
  rw [if_neg (not_not_intro (Or.inl h5)), if_neg (not_not_intro hnd), best_of]
  have h1 : combos 5 cs = [cs] := by
    rw [← h5]
    exact combos_self cs
  rw [h1]
  cases he : evaluate_five cs with
  | none => simp [collect_scores, he]
  | some s => simp [collect_scores, he]

/-- Specialization of `evaluate_five_card` to a defined 5-card score. -/
theorem evaluate_five_card_some (cs : List Card) (h5 : cs.length = 5)
    (hnd : cs.Nodup) (s : Nat) (he : evaluate_five cs = some s) :
    evaluate cs [] = .ok s := by
  rw [evaluate_five_card cs h5 hnd, he]

/-- C5: a 5-card hand's score is invariant under permutation of the 5
cards, and any two 5-card hands with the same rank multiset whose suit
assignments agree on flush-ness (in particular any two non-flush suit
assignments) receive the identical result. -/
theorem evaluate_five_hand_invariance (cs1 cs2 : List Card)
    (h5 : cs1.length = 5) (hnd1 : cs1.Nodup) :
    (cs1.Perm cs2 → evaluate cs1 [] = evaluate cs2 [])
    ∧ (cs2.length = 5 → cs2.Nodup →
        (cs1.map Card.rank_int).Perm (cs2.map Card.rank_int) →
        (suit_and cs1 != 0) = (suit_and cs2 != 0) →
        evaluate cs1 [] = evaluate cs2 []) := by
  constructor
  · intro hperm
    rw [evaluate_five_card cs1 h5 hnd1,
      evaluate_five_card cs2 (hperm.length_eq ▸ h5) (hperm.nodup hnd1),
      evaluate_five_perm hperm]
  · intro h52 hnd2 hrperm hflag
    rw [evaluate_five_card cs1 h5 hnd1, evaluate_five_card cs2 h52 hnd2,
      evaluate_five_congr hrperm hflag]

/-- C5 witness: the same ranks under two different non-flush suit
assignments (and a reordering) evaluate identically. -/
theorem evaluate_five_hand_invariance_witness :
    (evaluate [⟨14, .spades⟩, ⟨13, .spades⟩, ⟨8, .diamonds⟩, ⟨7, .clubs⟩, ⟨2, .hearts⟩] []
      = evaluate [⟨13, .spades⟩, ⟨14, .spades⟩, ⟨8, .diamonds⟩, ⟨7, .clubs⟩, ⟨2, .hearts⟩] [])
    ∧ (evaluate [⟨14, .spades⟩, ⟨13, .spades⟩, ⟨8, .diamonds⟩, ⟨7, .clubs⟩, ⟨2, .hearts⟩] []
      = evaluate [⟨14, .clubs⟩, ⟨13, .clubs⟩, ⟨8, .spades⟩, ⟨7, .diamonds⟩, ⟨2, .spades⟩] []) := by
  have h := evaluate_five_hand_invariance
    [⟨14, .spades⟩, ⟨13, .spades⟩, ⟨8, .diamonds⟩, ⟨7, .clubs⟩, ⟨2, .hearts⟩]
    [⟨13, .spades⟩, ⟨14, .spades⟩, ⟨8, .diamonds⟩, ⟨7, .clubs⟩, ⟨2, .hearts⟩]
    (by decide) (by decide)
  have h2 := evaluate_five_hand_invariance
    [⟨14, .spades⟩, ⟨13, .spades⟩, ⟨8, .diamonds⟩, ⟨7, .clubs⟩, ⟨2, .hearts⟩]
    [⟨14, .clubs⟩, ⟨13, .clubs⟩, ⟨8, .spades⟩, ⟨7, .diamonds⟩, ⟨2, .spades⟩]
    (by decide) (by decide)
  exact ⟨h.1 (by decide), h2.2 (by decide) (by decide) (by decide) (by decide)⟩

/-- C4: a combined card count outside 5/6/7 fails with `InvalidHandSize`;
a repeated rank+suit pair in a 5/6/7-card input fails with
`DuplicateCard`; and no score is ever produced unless the input has a
valid size and no duplicates (no partial result, no silent dropping). -/
theorem evaluate_error_handling (hole board : List Card) :
    (¬ ((hole ++ board).length = 5 ∨ (hole ++ board).length = 6
        ∨ (hole ++ board).length = 7) →
      evaluate hole board = .error .invalidHandSize)
    ∧ (((hole ++ board).length = 5 ∨ (hole ++ board).length = 6
        ∨ (hole ++ board).length = 7) → ¬ (hole ++ board).Nodup →
      evaluate hole board = .error .duplicateCard)
    ∧ (∀ s, evaluate hole board = .ok s →
        ((hole ++ board).length = 5 ∨ (hole ++ board).length = 6
          ∨ (hole ++ board).length = 7) ∧ (hole ++ board).Nodup) := by
  refine ⟨?_, ?_, ?_⟩
  · intro h
    rw [evaluate, if_pos h]
  · intro h1 h2
    rw [evaluate, if_neg (not_not_intro h1), if_pos h2]
  · intro s hok
    rw [evaluate] at hok
    by_cases h1 : ¬ ((hole ++ board).length = 5 ∨ (hole ++ board).length = 6
        ∨ (hole ++ board).length = 7)
    · rw [if_pos h1] at hok
      exact absurd hok (by simp)
    · rw [if_neg h1] at hok
      by_cases h2 : ¬ (hole ++ board).Nodup
      · rw [if_pos h2] at hok
        exact absurd hok (by simp)
      · exact ⟨not_not.mp h1, not_not.mp h2⟩

/-- C4 witness: a 4-card input fails with `InvalidHandSize`, and a
duplicated ace of hearts in a 5-card input fails with `DuplicateCard`. -/
theorem evaluate_error_handling_witness :
    evaluate [⟨14, .hearts⟩, ⟨13, .hearts⟩, ⟨12, .hearts⟩, ⟨11, .hearts⟩] []
      = .error .invalidHandSize
    ∧ evaluate [⟨14, .hearts⟩, ⟨14, .hearts⟩, ⟨13, .hearts⟩, ⟨12, .hearts⟩,
        ⟨11, .hearts⟩] [] = .error .duplicateCard := by
  refine ⟨(evaluate_error_handling _ []).1 (by decide), ?_⟩
  exact (evaluate_error_handling _ []).2.1 (by decide) (by decide)

theorem suit_and_zero_of_not_all_eq (cs : List Card) (a b : Card)
    (ha : a ∈ cs) (hb : b ∈ cs) (hne : a.suit ≠ b.suit) : suit_and cs = 0 := by
  by_contra h
  exact hne (suit_and_all_eq cs h a ha b hb)

/-- C3: the wheel `A,2,3,4,5` with any non-flush suit assignment scores
1609, the weakest straight (class 5, named Straight), strictly worse than
the 6-high straight at 1608; the wrap-around `Q,K,A,2,3` scores 6229,
which is High Card (class 9), not Straight. -/
theorem wheel_and_wraparound
    (sa sb sc sd se ta tb tc td te ua ub uc ud ue : Suit)
    (hw : ¬ (sa = sb ∧ sb = sc ∧ sc = sd ∧ sd = se))
    (hs : ¬ (ta = tb ∧ tb = tc ∧ tc = td ∧ td = te))
    (hq : ¬ (ua = ub ∧ ub = uc ∧ uc = ud ∧ ud = ue)) :
    evaluate [⟨14, sa⟩, ⟨2, sb⟩, ⟨3, sc⟩, ⟨4, sd⟩, ⟨5, se⟩] [] = .ok 1609
    ∧ evaluate [⟨2, ta⟩, ⟨3, tb⟩, ⟨4, tc⟩, ⟨5, td⟩, ⟨6, te⟩] [] = .ok 1608
    ∧ evaluate [⟨12, ua⟩, ⟨13, ub⟩, ⟨14, uc⟩, ⟨2, ud⟩, ⟨3, ue⟩] [] = .ok 6229
    ∧ get_rank_class 1609 = some 5 ∧ class_to_string 5 = "Straight"
    ∧ 1608 < 1609
    ∧ get_rank_class 6229 = some 9 ∧ class_to_string 9 = "High Card"
    ∧ get_rank_class 6229 ≠ some 5 := by
  have hall4 : ∀ (v w x y z : Suit), ¬ (v = w ∧ w = x ∧ x = y ∧ y = z) →
      ∀ r1 r2 r3 r4 r5 : Nat,
      suit_and [⟨r1, v⟩, ⟨r2, w⟩, ⟨r3, x⟩, ⟨r4, y⟩, ⟨r5, z⟩] = 0 := by
    intro v w x y z hne r1 r2 r3 r4 r5
    by_contra h
    have hall := suit_and_all_eq _ h
    refine hne ⟨?_, ?_, ?_, ?_⟩
    · exact hall ⟨r1, v⟩ (by simp) ⟨r2, w⟩ (by simp)
    · exact hall ⟨r2, w⟩ (by simp) ⟨r3, x⟩ (by simp)
    · exact hall ⟨r3, x⟩ (by simp) ⟨r4, y⟩ (by simp)
    · exact hall ⟨r4, y⟩ (by simp) ⟨r5, z⟩ (by simp)
  have hza := hall4 sa sb sc sd se hw 14 2 3 4 5
  have hzb := hall4 ta tb tc td te hs 2 3 4 5 6
  have hzc := hall4 ua ub uc ud ue hq 12 13 14 2 3
  refine ⟨?_, ?_, ?_, by decide, rfl, by decide, by decide, rfl, by decide⟩
  · refine evaluate_five_card_some [⟨14, sa⟩, ⟨2, sb⟩, ⟨3, sc⟩, ⟨4, sd⟩, ⟨5, se⟩]
      rfl (by simp) 1609 ?_
    rw [evaluate_five, hza, show List.map Card.rank_int
      [(⟨14, sa⟩ : Card), ⟨2, sb⟩, ⟨3, sc⟩, ⟨4, sd⟩, ⟨5, se⟩]
      = [14, 2, 3, 4, 5] from rfl]
    rfl
  · refine evaluate_five_card_some [⟨2, ta⟩, ⟨3, tb⟩, ⟨4, tc⟩, ⟨5, td⟩, ⟨6, te⟩]
      rfl (by simp) 1608 ?_
    rw [evaluate_five, hzb, show List.map Card.rank_int
      [(⟨2, ta⟩ : Card), ⟨3, tb⟩, ⟨4, tc⟩, ⟨5, td⟩, ⟨6, te⟩]
      = [2, 3, 4, 5, 6] from rfl]
    rfl
  · refine evaluate_five_card_some [⟨12, ua⟩, ⟨13, ub⟩, ⟨14, uc⟩, ⟨2, ud⟩, ⟨3, ue⟩]
      rfl (by simp) 6229 ?_
    rw [evaluate_five, hzc, show List.map Card.rank_int
      [(⟨12, ua⟩ : Card), ⟨13, ub⟩, ⟨14, uc⟩, ⟨2, ud⟩, ⟨3, ue⟩]
      = [12, 13, 14, 2, 3] from rfl]
    rfl

/-- C3 witness: concrete mixed-suit assignments for the three hands. -/
theorem wheel_and_wraparound_witness :
    evaluate [⟨14, .hearts⟩, ⟨2, .spades⟩, ⟨3, .clubs⟩, ⟨4, .diamonds⟩,
      ⟨5, .hearts⟩] [] = .ok 1609
    ∧ evaluate [⟨2, .hearts⟩, ⟨3, .diamonds⟩, ⟨4, .clubs⟩, ⟨5, .spades⟩,
      ⟨6, .hearts⟩] [] = .ok 1608
    ∧ evaluate [⟨12, .hearts⟩, ⟨13, .diamonds⟩, ⟨14, .clubs⟩, ⟨2, .spades⟩,
      ⟨3, .hearts⟩] [] = .ok 6229 := by
  have h := wheel_and_wraparound .hearts .spades .clubs .diamonds .hearts
    .hearts .diamonds .clubs .spades .hearts
    .hearts .diamonds .clubs .spades .hearts
    (by decide) (by decide) (by decide)
  exact ⟨h.1, h.2.1, h.2.2.1⟩

/-- C2: on a valid 6- or 7-card input, `evaluate` returns exactly the
minimum of the 5-card evaluation over all `C(6,5) = 6` or `C(7,5) = 21`
five-card subsets; and — amended — two inputs whose best 5-card subsets
carry the same rank multiset AND agree on flush-ness receive exactly
equal scores. (With the rank multiset alone, as the claim states it, the
split-pot consequence fails when one best subset is a flush and the other
is not; see the counterexample.) -/
theorem evaluate_min_over_subsets (hole board : List Card)
    (hlen : (hole ++ board).length = 6 ∨ (hole ++ board).length = 7)
    (hnd : (hole ++ board).Nodup) (hv : ∀ c ∈ hole ++ board, c.valid) :
    ((hole ++ board).length = 6 → (combos 5 (hole ++ board)).length = 6)
    ∧ ((hole ++ board).length = 7 → (combos 5 (hole ++ board)).length = 21)
    ∧ ∃ s, evaluate hole board = .ok s
      ∧ (∃ b ∈ combos 5 (hole ++ board), evaluate_five b = some s)
      ∧ (∀ b ∈ combos 5 (hole ++ board), ∀ t,
          evaluate_five b = some t → s ≤ t)
      ∧ (∀ (hole2 board2 : List Card) (s2 : Nat) (b1 b2 : List Card),
          evaluate hole2 board2 = .ok s2 →
          b1 ∈ combos 5 (hole ++ board) → evaluate_five b1 = some s →
          b2 ∈ combos 5 (hole2 ++ board2) → evaluate_five b2 = some s2 →
          (b1.map Card.rank_int).Perm (b2.map Card.rank_int) →
          (suit_and b1 != 0) = (suit_and b2 != 0) →
          s = s2) := by
  refine ⟨?_, ?_, ?_⟩
  · intro h6
    rw [combos_length, h6]
    decide
  · intro h7
    rw [combos_length, h7]
    decide
  · obtain ⟨s, hs, _, _, hatt, hmin⟩ :=
      evaluate_ok hole board (Or.inr hlen) hnd hv
    refine ⟨s, hs, hatt, hmin, ?_⟩
    intro hole2 board2 s2 b1 b2 _ _ hb1e _ hb2e hrp hfl
    have hcongr := evaluate_five_congr hrp hfl
    rw [hb1e, hb2e] at hcongr
    injection hcongr

/-- C2 witness: a concrete 7-card input (two hole cards, five board
cards): the subset count is `C(7,5) = 21` and the returned score is the
minimum over the 21 five-card sub-evaluations, attained by one of them. -/
theorem evaluate_min_over_subsets_witness :
    (combos 5 ([(⟨14, .spades⟩ : Card), ⟨13, .hearts⟩]
      ++ [⟨12, .spades⟩, ⟨11, .diamonds⟩, ⟨10, .clubs⟩, ⟨2, .hearts⟩,
          ⟨7, .diamonds⟩])).length = 21
    ∧ ∃ s, evaluate [⟨14, .spades⟩, ⟨13, .hearts⟩]
        [⟨12, .spades⟩, ⟨11, .diamonds⟩, ⟨10, .clubs⟩, ⟨2, .hearts⟩,
          ⟨7, .diamonds⟩] = .ok s
      ∧ (∃ b ∈ combos 5 ([(⟨14, .spades⟩ : Card), ⟨13, .hearts⟩]
          ++ [⟨12, .spades⟩, ⟨11, .diamonds⟩, ⟨10, .clubs⟩, ⟨2, .hearts⟩,
              ⟨7, .diamonds⟩]), evaluate_five b = some s)
      ∧ (∀ b ∈ combos 5 ([(⟨14, .spades⟩ : Card), ⟨13, .hearts⟩]
          ++ [⟨12, .spades⟩, ⟨11, .diamonds⟩, ⟨10, .clubs⟩, ⟨2, .hearts⟩,
              ⟨7, .diamonds⟩]), ∀ t, evaluate_five b = some t → s ≤ t) := by
  obtain ⟨h6, h7, s, hs, hatt, hmin, _⟩ :=
    evaluate_min_over_subsets [⟨14, .spades⟩, ⟨13, .hearts⟩]
      [⟨12, .spades⟩, ⟨11, .diamonds⟩, ⟨10, .clubs⟩, ⟨2, .hearts⟩,
        ⟨7, .diamonds⟩] (by decide) (by decide) (by decide)
  exact ⟨h7 (by decide), s, hs, hatt, hmin⟩

/-- C2 counterexample: the split-pot consequence as the claim states it —
best 5-card subsets with identical rank multisets force equal scores —
is false without a flush-ness side condition: a spade royal flush beside
an offsuit `A,K,Q,J,10`: both inputs' best subsets carry exactly the
ranks `A,K,Q,J,10`, yet the scores are 1 (straight flush) and 1600
(straight). -/
theorem seven_card_split_counterexample :
    ∃ (cs1 cs2 b1 b2 : List Card) (s1 s2 : Nat),
      cs1.length = 7 ∧ cs2.length = 7 ∧ cs1.Nodup ∧ cs2.Nodup
      ∧ (∀ c ∈ cs1, c.valid) ∧ (∀ c ∈ cs2, c.valid)
      ∧ evaluate cs1 [] = .ok s1 ∧ evaluate cs2 [] = .ok s2
      ∧ b1 ∈ combos 5 cs1 ∧ evaluate_five b1 = some s1
      ∧ (∀ b ∈ combos 5 cs1, ∀ t, evaluate_five b = some t → s1 ≤ t)
      ∧ b2 ∈ combos 5 cs2 ∧ evaluate_five b2 = some s2
      ∧ (∀ b ∈ combos 5 cs2, ∀ t, evaluate_five b = some t → s2 ≤ t)
      ∧ b1.map Card.rank_int = b2.map Card.rank_int
      ∧ s1 ≠ s2 := by
  obtain ⟨s1, hs1, hr1, _, hatt1, hmin1⟩ :=
    evaluate_ok [⟨14, .spades⟩, ⟨13, .spades⟩, ⟨12, .spades⟩, ⟨11, .spades⟩,
      ⟨10, .spades⟩, ⟨8, .hearts⟩, ⟨2, .diamonds⟩] []
      (by decide) (by decide) (by decide)
  obtain ⟨s2, hs2, _, _, hatt2, hmin2⟩ :=
    evaluate_ok [⟨14, .diamonds⟩, ⟨13, .hearts⟩, ⟨12, .clubs⟩, ⟨11, .spades⟩,
      ⟨10, .diamonds⟩, ⟨8, .hearts⟩, ⟨2, .clubs⟩] []
      (by decide) (by decide) (by decide)
  simp only [List.append_nil] at hatt1 hmin1 hatt2 hmin2
  have hb1 : evaluate_five [(⟨14, .spades⟩ : Card), ⟨13, .spades⟩,
      ⟨12, .spades⟩, ⟨11, .spades⟩, ⟨10, .spades⟩] = some 1 := by decide
  have hmem1 : [(⟨14, .spades⟩ : Card), ⟨13, .spades⟩, ⟨12, .spades⟩,
      ⟨11, .spades⟩, ⟨10, .spades⟩] ∈
      combos 5 [(⟨14, .spades⟩ : Card), ⟨13, .spades⟩, ⟨12, .spades⟩,
        ⟨11, .spades⟩, ⟨10, .spades⟩, ⟨8, .hearts⟩, ⟨2, .diamonds⟩] := by
    decide
  have he1 : s1 = 1 := by
    have := hmin1 _ hmem1 1 hb1
    omega
  have hb2 : evaluate_five [(⟨14, .diamonds⟩ : Card), ⟨13, .hearts⟩,
      ⟨12, .clubs⟩, ⟨11, .spades⟩, ⟨10, .diamonds⟩] = some 1600 := by decide
  have hmem2 : [(⟨14, .diamonds⟩ : Card), ⟨13, .hearts⟩, ⟨12, .clubs⟩,
      ⟨11, .spades⟩, ⟨10, .diamonds⟩] ∈
      combos 5 [(⟨14, .diamonds⟩ : Card), ⟨13, .hearts⟩, ⟨12, .clubs⟩,
        ⟨11, .spades⟩, ⟨10, .diamonds⟩, ⟨8, .hearts⟩, ⟨2, .clubs⟩] := by
    decide
  have he2 : s2 = 1600 := by
    obtain ⟨b0, hb0m, hb0e⟩ := hatt2
    obtain ⟨hbl, hbn, hbv⟩ := combos_five_props _ (by decide) (by decide) b0 hb0m
    obtain ⟨t, ht, _, _, hlow⟩ := evaluate_five_ok b0 hbl hbn hbv
    rw [ht] at hb0e
    injection hb0e with hb0e
    have hsz : suit_and b0 = 0 := by
      have hall : ∀ b ∈ combos 5 [(⟨14, .diamonds⟩ : Card), ⟨13, .hearts⟩,
          ⟨12, .clubs⟩, ⟨11, .spades⟩, ⟨10, .diamonds⟩, ⟨8, .hearts⟩,
          ⟨2, .clubs⟩], suit_and b = 0 := by decide
      exact hall b0 hb0m
    have hrnd : (b0.map Card.rank_int).Nodup := by
      have hsub := (combos_mem_sublist _ 5 b0 hb0m).1
      exact (hsub.map Card.rank_int).nodup (by decide)
    have h1600 : 1600 ≤ t := hlow hsz hrnd
    have hub := hmin2 _ hmem2 1600 hb2
    omega
  subst he1
  subst he2
  exact ⟨_, _, _, _, 1, 1600, by decide, by decide, by decide, by decide,
    by decide, by decide, hs1, hs2, hmem1, hb1, hmin1, hmem2, hb2, hmin2,
    by decide, by decide⟩

end PokerBot
